import Mathlib

/-!
Verification of the layered configuration resolution engine: a shallow
embedding of the deep-merge algorithm and the resolution pipeline of
the Prep-Stage-Plugin repository:

* `src/src/defaults/variable_merger.py` (`VariableMerger`): `merge_variables`,
  `_merge_values`, `_merge_lists`, `_merge_tag_lists`, `_merge_dictionaries`,
  `_is_tag_list`, `apply_priority_chain`, `_detect_changes`;
* `src/src/defaults_processor.py` (`DefaultsProcessor`):
  `process_resource_entries`, `_process_single_entry`;
* `src/src/git_integration/file_loader.py` (`FileLoader.load_json_file`) and
  the layer-loading wrappers in `src/src/defaults/override_manager.py` and
  `src/src/defaults/product_defaults.py`.

JSON values are modelled by the inductive `JVal`; Python dictionaries are
association lists in insertion order (real `dict`s have unique keys, so
theorems take key uniqueness as an explicit hypothesis where it matters).
Python expressions that can raise — `'key' in lower_tag` raises `TypeError`
when `lower_tag` is a number/boolean/`None`, `lower_tag['key']` raises
when `lower_tag` is a list or string, and hashing a list or dict while
building or probing `higher_tag_keys` raises `TypeError: unhashable
type` — are modelled in the `Except Unit` monad; an `.error ()` value marks
a Python exception escaping the merge.  Python `==`, under which `True ==
1`, `False == 0` and dicts compare as unordered key-value maps, is modelled
by `pyEq`; Python hashability by `hashable`.
-/

namespace PrepStage

/-- A JSON-compatible value as produced by `json.loads`: `None`, `bool`,
`int`, `str`, `list`, or `dict` (association list in insertion order). -/
inductive JVal : Type where
  | null : JVal
  | bool : Bool → JVal
  | num : Int → JVal
  | str : String → JVal
  | list : List JVal → JVal
  | obj : List (String × JVal) → JVal

mutual

/-- Decidable structural equality on `JVal`, used for Lean-level statements
and for `decide`; Python `==` is the separate `pyEq` below. -/
def JVal.decEq : (a b : JVal) → Decidable (a = b)
  | .null, .null => .isTrue rfl
  | .null, .bool _ => .isFalse nofun
  | .null, .num _ => .isFalse nofun
  | .null, .str _ => .isFalse nofun
  | .null, .list _ => .isFalse nofun
  | .null, .obj _ => .isFalse nofun
  | .bool _, .null => .isFalse nofun
  | .bool a, .bool b =>
    if h : a = b then .isTrue (by rw [h]) else .isFalse (fun hh => h (by cases hh; rfl))
  | .bool _, .num _ => .isFalse nofun
  | .bool _, .str _ => .isFalse nofun
  | .bool _, .list _ => .isFalse nofun
  | .bool _, .obj _ => .isFalse nofun
  | .num _, .null => .isFalse nofun
  | .num _, .bool _ => .isFalse nofun
  | .num a, .num b =>
    if h : a = b then .isTrue (by rw [h]) else .isFalse (fun hh => h (by cases hh; rfl))
  | .num _, .str _ => .isFalse nofun
  | .num _, .list _ => .isFalse nofun
  | .num _, .obj _ => .isFalse nofun
  | .str _, .null => .isFalse nofun
  | .str _, .bool _ => .isFalse nofun
  | .str _, .num _ => .isFalse nofun
  | .str a, .str b =>
    if h : a = b then .isTrue (by rw [h]) else .isFalse (fun hh => h (by cases hh; rfl))
  | .str _, .list _ => .isFalse nofun
  | .str _, .obj _ => .isFalse nofun
  | .list _, .null => .isFalse nofun
  | .list _, .bool _ => .isFalse nofun
  | .list _, .num _ => .isFalse nofun
  | .list _, .str _ => .isFalse nofun
  | .list xs, .list ys =>
    match JVal.decEqList xs ys with
    | .isTrue h => .isTrue (by rw [h])
    | .isFalse h => .isFalse (fun hh => h (by cases hh; rfl))
  | .list _, .obj _ => .isFalse nofun
  | .obj _, .null => .isFalse nofun
  | .obj _, .bool _ => .isFalse nofun
  | .obj _, .num _ => .isFalse nofun
  | .obj _, .str _ => .isFalse nofun
  | .obj _, .list _ => .isFalse nofun
  | .obj xs, .obj ys =>
    match JVal.decEqObj xs ys with
    | .isTrue h => .isTrue (by rw [h])
    | .isFalse h => .isFalse (fun hh => h (by cases hh; rfl))

/-- Decidable equality of JSON lists. -/
def JVal.decEqList : (xs ys : List JVal) → Decidable (xs = ys)
  | [], [] => .isTrue rfl
  | [], _ :: _ => .isFalse nofun
  | _ :: _, [] => .isFalse nofun
  | x :: xs, y :: ys =>
    match JVal.decEq x y with
    | .isTrue h1 =>
      match JVal.decEqList xs ys with
      | .isTrue h2 => .isTrue (by rw [h1, h2])
      | .isFalse h2 => .isFalse (fun hh => h2 (by cases hh; rfl))
    | .isFalse h1 => .isFalse (fun hh => h1 (by cases hh; rfl))

/-- Decidable equality of JSON object entry lists. -/
def JVal.decEqObj : (xs ys : List (String × JVal)) → Decidable (xs = ys)
  | [], [] => .isTrue rfl
  | [], _ :: _ => .isFalse nofun
  | _ :: _, [] => .isFalse nofun
  | (k, v) :: xs, (k', v') :: ys =>
    if hk : k = k' then
      match JVal.decEq v v' with
      | .isTrue h1 =>
        match JVal.decEqObj xs ys with
        | .isTrue h2 => .isTrue (by rw [hk, h1, h2])
        | .isFalse h2 => .isFalse (fun hh => h2 (by cases hh; rfl))
      | .isFalse h1 => .isFalse (fun hh => h1 (by cases hh; rfl))
    else .isFalse (fun hh => hk (by cases hh; rfl))

end

instance : DecidableEq JVal := JVal.decEq

instance {ε α : Type} [DecidableEq ε] [DecidableEq α] : DecidableEq (Except ε α) := fun a b =>
  match a, b with
  | .ok x, .ok y =>
    if h : x = y then .isTrue (by rw [h]) else .isFalse (fun hh => h (by cases hh; rfl))
  | .error x, .error y =>
    if h : x = y then .isTrue (by rw [h]) else .isFalse (fun hh => h (by cases hh; rfl))
  | .ok _, .error _ => .isFalse nofun
  | .error _, .ok _ => .isFalse nofun

/-- A Python dictionary of variables, as an association list in insertion
order (`Dict[str, Any]` in the source). -/
abbrev VarDict := List (String × JVal)

/-- Python `k in d` for a dict: does the association list bind `k`? -/
def containsKey (kvs : VarDict) (k : String) : Bool :=
  kvs.any (fun p => p.1 == k)

/-- Python `d[k]` read on a dict (first binding wins; real dicts are
duplicate-free, so there is at most one). -/
def getVal (kvs : VarDict) (k : String) : Option JVal :=
  match kvs.find? (fun p => p.1 == k) with
  | some p => some p.2
  | none => none

/-- Python `d[k] = v`: replace the binding in place when `k` is present,
append a new binding otherwise. -/
def setVal (kvs : VarDict) (k : String) (v : JVal) : VarDict :=
  if containsKey kvs k then
    kvs.map (fun p => if p.1 == k then (k, v) else p)
  else
    kvs ++ [(k, v)]

/-- Model of `VariableMerger._is_tag_list`: a non-empty list whose elements are all
dicts containing a `key` field. -/
def is_tag_list (items : List JVal) : Bool :=
  !items.isEmpty && items.all (fun item =>
    match item with
    | .obj kvs => containsKey kvs "key"
    | _ => false)

/-- Does the character list starting here begin with the pattern? -/
def charsMatchAt : List Char → List Char → Bool
  | [], _ => true
  | _ :: _, [] => false
  | p :: ps, c :: cs => p == c && charsMatchAt ps cs

/-- Does the character list contain `key` as a contiguous substring? -/
def charsContainKey : List Char → Bool
  | [] => false
  | c :: rest => charsMatchAt "key".data (c :: rest) || charsContainKey rest

/-- Python `'key' in s` for a string `s`: substring containment. -/
def strContainsKey (s : String) : Bool :=
  charsContainKey s.data

/-- Python hashability of a parsed JSON value: lists and dicts are
unhashable, and hashing one — as a dict-comprehension key or in a dict
membership test — raises `TypeError: unhashable type`. -/
def hashable : JVal → Bool
  | .list _ => false
  | .obj _ => false
  | _ => true

mutual

/-- Python `==` on parsed JSON values: `None` equals only `None`; booleans
compare numerically with numbers (`True == 1`, `False == 0`); strings
compare as strings; lists compare element-wise; dicts compare as unordered
key-value maps (`len(d1) == len(d2) and all(k in d2 and d1[k] == d2[k] for
k in d1)`, iterating the first dict's entries). -/
def pyEq : JVal → JVal → Bool
  | .null, .null => true
  | .bool a, .bool b => a == b
  | .bool a, .num m => (if a then (1 : Int) else 0) == m
  | .num n, .bool b => n == (if b then (1 : Int) else 0)
  | .num n, .num m => n == m
  | .str a, .str b => a == b
  | .list xs, .list ys => pyEqList xs ys
  | .obj d1, .obj d2 => d1.length == d2.length && pyEqEntries d1 d2
  | _, _ => false

/-- Python `==` on lists: equal lengths and element-wise equality. -/
def pyEqList : List JVal → List JVal → Bool
  | [], [] => true
  | x :: xs, y :: ys => pyEq x y && pyEqList xs ys
  | _, _ => false

/-- The per-entry part of Python dict `==`: every key of the first dict is
bound in the second dict to an equal value. -/
def pyEqEntries : List (String × JVal) → VarDict → Bool
  | [], _ => true
  | (k, v) :: rest, d2 =>
    (match getVal d2 k with
     | some w => pyEq v w
     | none => false) && pyEqEntries rest d2

end

/-- Python `x in l` for a list `l`, and key membership of a dict built from
the listed keys: membership under Python `==` (each stored element is
compared against the probe). -/
def pyMem (x : JVal) (l : List JVal) : Bool :=
  l.any (fun y => pyEq y x)

/-- The keys of `higher_tag_keys` in `_merge_tag_lists`: Python
`{tag.get('key'): tag for tag in higher_tags if 'key' in tag}`.  Only key
membership of this dict is used downstream, so the model keeps the list of
key values.  `'key' in tag` raises `TypeError` on numbers/booleans/`None`;
`tag.get` raises `AttributeError` on lists and strings that pass the
membership test; and inserting an unhashable key value — a list or a
dict — raises `TypeError: unhashable type`. -/
def tagKeysE : List JVal → Except Unit (List JVal)
  | [] => .ok []
  | .obj kvs :: rest =>
    match getVal kvs "key" with
    | some v =>
      if hashable v then (tagKeysE rest).map (fun ks => v :: ks) else .error ()
    | none => tagKeysE rest
  | .list xs :: rest =>
    if pyMem (.str "key") xs then .error () else tagKeysE rest
  | .str s :: rest =>
    if strContainsKey s then .error () else tagKeysE rest
  | _ :: _ => .error ()

/-- The `for lower_tag in lower_tags` loop of `_merge_tag_lists`: append
lower tags whose `key` value is not among the higher tags' keys.  Python
`'key' in lower_tag` / `lower_tag['key']` raise a `TypeError` for lower
elements that are numbers, booleans, `None`, or lists/strings containing
`key`; the membership test `tag_key not in higher_tag_keys` hashes
`tag_key` first — raising `TypeError` when it is a list or dict — and then
compares under Python `==`, so `True` collides with `1`. -/
def mergeTagAux (higherTagKeys : List JVal) : List JVal → List JVal → Except Unit (List JVal)
  | result, [] => .ok result
  | result, lowerTag :: rest =>
    match lowerTag with
    | .obj kvs =>
      match getVal kvs "key" with
      | some tagKey =>
        if hashable tagKey then
          if pyMem tagKey higherTagKeys then mergeTagAux higherTagKeys result rest
          else mergeTagAux higherTagKeys (result ++ [.obj kvs]) rest
        else .error ()
      | none => mergeTagAux higherTagKeys result rest
    | .list xs =>
      if pyMem (.str "key") xs then .error () else mergeTagAux higherTagKeys result rest
    | .str s =>
      if strContainsKey s then .error () else mergeTagAux higherTagKeys result rest
    | _ => .error ()

/-- Model of `VariableMerger._merge_tag_lists`: start from a copy of `higher_tags`,
then append the lower tags whose `key` does not collide. -/
def merge_tag_lists (lowerTags higherTags : List JVal) : Except Unit (List JVal) :=
  match tagKeysE higherTags with
  | .error e => .error e
  | .ok hkeys => mergeTagAux hkeys higherTags lowerTags

/-- Model of `VariableMerger._merge_lists`: keyed tag merge for the `additional_tags`
and `tags` keys when `higher` is a tag list; otherwise start from a copy of
`higher_list` and append the lower items not already present. -/
def merge_lists (lowerList higherList : List JVal) (key : String) : Except Unit (List JVal) :=
  if (key == "additional_tags" || key == "tags") && is_tag_list higherList then
    merge_tag_lists lowerList higherList
  else
    .ok (lowerList.foldl (fun res item => if pyMem item res then res else res ++ [item])
      higherList)

mutual

/-- Model of `VariableMerger._merge_values`: `None` handling first, then lists,
then dicts recursively, otherwise the higher-priority value wins. -/
def merge_values (lowerValue higherValue : JVal) (key : String) : Except Unit JVal :=
  if higherValue = .null then .ok lowerValue
  else if lowerValue = .null then .ok higherValue
  else
    match lowerValue, higherValue with
    | .list ll, .list hl => (merge_lists ll hl key).map .list
    | .obj ld, .obj hd => (merge_dictionaries ld hd key).map .obj
    | _, _ => .ok higherValue

/-- Model of `VariableMerger._merge_dictionaries`: the `for nested_key, ... in
higher_dict.items()` loop, with `result` starting as a copy of the lower
dict; nested merges use the dotted path `key + "." + nested_key`. -/
def merge_dictionaries (result : VarDict) (higher : VarDict) (key : String) :
    Except Unit VarDict :=
  match higher with
  | [] => .ok result
  | (nk, nhv) :: rest =>
    if containsKey result nk then
      match merge_values ((getVal result nk).getD .null) nhv (key ++ "." ++ nk) with
      | .error e => .error e
      | .ok mv => merge_dictionaries (setVal result nk mv) rest key
    else
      merge_dictionaries (result ++ [(nk, nhv)]) rest key

end

/-- The `for key, higher_value in higher_priority.items()` loop of
`VariableMerger.merge_variables`; unlike `_merge_dictionaries` the merge key
passed down is the bare top-level key. -/
def mergeVarsAux : VarDict → VarDict → Except Unit VarDict
  | result, [] => .ok result
  | result, (k, hv) :: rest =>
    if containsKey result k then
      match merge_values ((getVal result k).getD .null) hv k with
      | .error e => .error e
      | .ok mv => mergeVarsAux (setVal result k mv) rest
    else
      mergeVarsAux (result ++ [(k, hv)]) rest

/-- Model of `VariableMerger.merge_variables`: empty-dict short circuits, then the
per-key merge loop. -/
def merge_variables (lower higher : VarDict) : Except Unit VarDict :=
  if lower.isEmpty then .ok higher
  else if higher.isEmpty then .ok lower
  else mergeVarsAux lower higher

/-- The layer loop of `VariableMerger.apply_priority_chain`: falsy (empty)
configs are skipped, the rest are merged onto the accumulator in order. -/
def applyChainAux : VarDict → List VarDict → Except Unit VarDict
  | result, [] => .ok result
  | result, config :: rest =>
    if config.isEmpty then applyChainAux result rest
    else
      match merge_variables result config with
      | .error e => .error e
      | .ok r => applyChainAux r rest

/-- Model of `VariableMerger.apply_priority_chain`: fold the configuration layers in
ascending priority order onto the UI variables. -/
def apply_priority_chain (uiVariables : VarDict) (priorityConfigs : List VarDict) :
    Except Unit VarDict :=
  applyChainAux uiVariables priorityConfigs

/-- The removed-key records of `VariableMerger._detect_changes`: one
`"-" ++ key` per key of the old config missing from the new one. -/
def removed_records (oldConfig newConfig : VarDict) : List String :=
  oldConfig.filterMap (fun p =>
    if containsKey newConfig p.1 then none else some ("-" ++ p.1))

/-- Model of `VariableMerger._detect_changes`: added/modified records, then removed
records. -/
def detect_changes (oldConfig newConfig : VarDict) : List String :=
  (newConfig.filterMap (fun p =>
    match getVal oldConfig p.1 with
    | none => some ("+" ++ p.1)
    | some ov => if ov ≠ p.2 then some ("~" ++ p.1) else none))
  ++ removed_records oldConfig newConfig

/-! ## The resolution pipeline (`defaults_processor.py` and the loaders) -/

/-- The state of one layer document at its derived repository path, as seen
by `FileLoader.load_json_file`: the file may be missing, empty, unreadable
or malformed (`FileLoadError`), or may parse to a JSON value. -/
inductive DocState : Type where
  | missing : DocState
  | emptyFile : DocState
  | malformed : DocState
  | parsed : JVal → DocState

/-- Model of `FileLoader.load_json_file`: `None` for a missing file, `{}` for an
empty file, `FileLoadError` for malformed/unreadable content, otherwise the
parsed value (a JSON `null` document parses to Python `None`, which callers
cannot distinguish from a missing file). -/
def load_json_file : DocState → Except Unit (Option JVal)
  | .missing => .ok none
  | .emptyFile => .ok (some (.obj []))
  | .malformed => .error ()
  | .parsed v =>
    match v with
    | .null => .ok none
    | _ => .ok (some v)

/-- The layer-loading wrappers (`OverrideManager.load_enforced_defaults`,
`load_cloud_project_defaults`, `load_resource_overrides`, and
`ProductDefaultsLoader.load_defaults`): any exception inside the `try`
block — the `FileLoadError`, the `len()` call on a number/boolean, or the
`.items()` call in the logging helper on a non-empty list/string — is
caught and turned into `{}`; a `None` result is `{}` as well.  An empty
list or string is returned verbatim but, being falsy, is never appended to
`configs_to_apply`, so the model folds those cases into `{}` too. -/
def load_layer (d : DocState) : VarDict :=
  match load_json_file d with
  | .error _ => []
  | .ok none => []
  | .ok (some v) =>
    match v with
    | .obj kvs => kvs
    | _ => []

/-- Python truthiness of a parsed JSON value. -/
def jTruthy : JVal → Bool
  | .null => false
  | .bool b => b
  | .num n => n != 0
  | .str s => !s.isEmpty
  | .list xs => !xs.isEmpty
  | .obj kvs => !kvs.isEmpty

/-- Truthiness of `entry.get(k)`: false when the field is missing or falsy
(`not all([resource_type, resource_name, environment])`). -/
def fieldTruthy (entry : VarDict) (k : String) : Bool :=
  match getVal entry k with
  | none => false
  | some v => jTruthy v

/-- Truthiness of the optional cloud-project string (`if cloud_project:`). -/
def cpTruthy : Option String → Bool
  | none => false
  | some s => !s.isEmpty

/-- The four layer documents found at the lookup paths derived for one
entry (`{project}/{type}/{env}/default.json`,
`{type}/eit-enforced-default.json`, `{type}/{cloud_project}/default.json`,
`{type}/{cloud_project}/{resource_name}.json`). -/
structure LayerSource : Type where
  productDoc : DocState
  enforcedDoc : DocState
  cloudProjectDoc : DocState
  resourceOverrideDoc : DocState

/-- The `configs_to_apply` list built by `_process_single_entry`: product
defaults, enforced defaults, cloud-project defaults, resource overrides —
each appended only when its repository is set up, its guard
(`if cloud_project:`) holds, and the loaded dict is truthy (non-empty). -/
def gather_configs (cp : Option String) (productsSetup overridesSetup : Bool)
    (src : LayerSource) : List VarDict :=
  let productDefaults := load_layer src.productDoc
  let enforcedDefaults := load_layer src.enforcedDoc
  let cloudDefaults := load_layer src.cloudProjectDoc
  let resourceOverrides := load_layer src.resourceOverrideDoc
  (if productsSetup && !productDefaults.isEmpty then [productDefaults] else [])
    ++ (if overridesSetup && !enforcedDefaults.isEmpty then [enforcedDefaults] else [])
    ++ (if overridesSetup && cpTruthy cp && !cloudDefaults.isEmpty then [cloudDefaults] else [])
    ++ (if overridesSetup && cpTruthy cp && !resourceOverrides.isEmpty
        then [resourceOverrides] else [])

/-- The `try` block of `_process_single_entry` after field extraction:
load the layers and, when any are present, apply the priority chain to the
entry. -/
def resolve_with_layers (entry : VarDict) (cp : Option String)
    (productsSetup overridesSetup : Bool) (src : LayerSource) : Except Unit VarDict :=
  let configs := gather_configs cp productsSetup overridesSetup src
  if configs.isEmpty then .ok entry
  else apply_priority_chain entry configs

/-- Model of `DefaultsProcessor._process_single_entry`: entries whose `type`,
`resource_name` or `env` field is missing or falsy are returned unchanged
before any layer is consulted; any exception in the load/merge block is
caught and the original entry returned. -/
def process_single_entry (entry : VarDict) (cp : Option String)
    (productsSetup overridesSetup : Bool) (src : LayerSource) : VarDict :=
  if !(fieldTruthy entry "type" && fieldTruthy entry "resource_name"
      && fieldTruthy entry "env") then entry
  else
    match resolve_with_layers entry cp productsSetup overridesSetup src with
    | .ok r => r
    | .error _ => entry

/-- The `for i, entry in enumerate(resource_entries)` loop of
`process_resource_entries`; `src i` gives the documents at the lookup paths
derived from entry `i`. -/
def processEntriesAux (cp : Option String) (productsSetup overridesSetup : Bool)
    (src : Nat → LayerSource) : Nat → List VarDict → List VarDict
  | _, [] => []
  | i, e :: rest =>
    process_single_entry e cp productsSetup overridesSetup (src i)
      :: processEntriesAux cp productsSetup overridesSetup src (i + 1) rest

/-- Model of `DefaultsProcessor.process_resource_entries`: empty input and
unconfigured Git short-circuit, then the per-entry loop.  `extractedCP`
stands for the result of `_extract_cloud_project(resource_entries)`, used
when the supplied cloud project is falsy. -/
def process_resource_entries (entries : List VarDict)
    (cloudProject extractedCP : Option String)
    (gitConfigured productsSetup overridesSetup : Bool)
    (src : Nat → LayerSource) : List VarDict :=
  if entries.isEmpty then []
  else if !gitConfigured then entries
  else
    let cp := if cpTruthy cloudProject then cloudProject else extractedCP
    processEntriesAux cp productsSetup overridesSetup src 0 entries

/-! ## Predicates used to state properties

The following definitions do not come from the source; they name shapes
used in the theorem statements below. -/

/-- Survivor predicate of the keyed tag merge: a lower element contributes
to the result exactly when it is a mapping whose `key` value is hashable
and not Python-equal to any of the higher list's key values.  (Stated for
describing the result of `_merge_tag_lists`.) -/
def tagSurvives (higherTagKeys : List JVal) (lt : JVal) : Bool :=
  match lt with
  | .obj kvs =>
    match getVal kvs "key" with
    | some tagKey => hashable tagKey && !pyMem tagKey higherTagKeys
    | none => false
  | _ => false

/-- Lower elements on which the keyed tag-merge loop does not raise:
mappings without a `key` field or with a hashable `key` value, strings not
containing `key`, and lists not containing the string `key`.  (Stated for
describing when the loop of `_merge_tag_lists` completes.) -/
def tagBenign (lt : JVal) : Bool :=
  match lt with
  | .obj kvs =>
    match getVal kvs "key" with
    | some tagKey => hashable tagKey
    | none => true
  | .str s => !strContainsKey s
  | .list xs => !pyMem (.str "key") xs
  | _ => false

mutual

/-- The shape of real parsed JSON data on which re-resolution is stable:
every object — also inside lists — has duplicate-free keys, as `json.loads`
guarantees, and every keyed tag list carries only hashable `key` values, so
that building `higher_tag_keys` over it cannot raise. -/
def wellFormed : JVal → Bool
  | .list l => (!is_tag_list l || l.all (fun t => tagBenign t)) && wellFormedList l
  | .obj kvs => wellFormedEntries kvs
  | _ => true

/-- Every list element is well-formed. -/
def wellFormedList : List JVal → Bool
  | [] => true
  | x :: xs => wellFormed x && wellFormedList xs

/-- Entry lists with duplicate-free keys and well-formed values. -/
def wellFormedEntries : List (String × JVal) → Bool
  | [] => true
  | (k, v) :: rest => !containsKey rest k && (wellFormed v && wellFormedEntries rest)

end

/-! # Theorems -/

/-! ## Basic association-list lemmas -/

theorem containsKey_nil (k : String) : containsKey [] k = false := rfl

theorem containsKey_cons (k' : String) (v : JVal) (t : VarDict) (k : String) :
    containsKey ((k', v) :: t) k = ((k' == k) || containsKey t k) := by
  simp [containsKey]

theorem containsKey_append (l1 l2 : VarDict) (k : String) :
    containsKey (l1 ++ l2) k = (containsKey l1 k || containsKey l2 k) := by
  simp [containsKey, List.any_append]

theorem getVal_nil (k : String) : getVal [] k = none := rfl

theorem getVal_cons (k' : String) (v : JVal) (t : VarDict) (k : String) :
    getVal ((k', v) :: t) k = if k' == k then some v else getVal t k := by
  by_cases h : k' == k <;> simp [getVal, List.find?, h]

theorem containsKey_eq_isSome_getVal (kvs : VarDict) (k : String) :
    containsKey kvs k = (getVal kvs k).isSome := by
  induction kvs with
  | nil => rfl
  | cons p t ih =>
    obtain ⟨k', v⟩ := p
    rw [containsKey_cons, getVal_cons]
    by_cases h : k' == k <;> simp [h, ih]

theorem getVal_append_left (l1 l2 : VarDict) (k : String) (v : JVal)
    (h : getVal l1 k = some v) : getVal (l1 ++ l2) k = some v := by
  induction l1 with
  | nil => simp [getVal_nil] at h
  | cons p t ih =>
    obtain ⟨k', v'⟩ := p
    rw [getVal_cons] at h
    rw [List.cons_append, getVal_cons]
    by_cases hk : k' == k <;> simp [hk] at h ⊢
    · exact h
    · exact ih h

theorem getVal_append_right (l1 l2 : VarDict) (k : String)
    (h : containsKey l1 k = false) : getVal (l1 ++ l2) k = getVal l2 k := by
  induction l1 with
  | nil => rfl
  | cons p t ih =>
    obtain ⟨k', v'⟩ := p
    rw [containsKey_cons] at h
    rw [List.cons_append, getVal_cons]
    simp only [Bool.or_eq_false_iff] at h
    simp [h.1, ih h.2]

theorem containsKey_of_mem (kvs : VarDict) (p : String × JVal) (h : p ∈ kvs) :
    containsKey kvs p.1 = true := by
  unfold containsKey
  rw [List.any_eq_true]
  exact ⟨p, h, by simp⟩

theorem containsKey_of_getVal (kvs : VarDict) (k : String) (v : JVal)
    (h : getVal kvs k = some v) : containsKey kvs k = true := by
  rw [containsKey_eq_isSome_getVal, h]
  rfl

theorem setVal_pos (kvs : VarDict) (k : String) (v : JVal)
    (hc : containsKey kvs k = true) :
    setVal kvs k v = kvs.map (fun p => if p.1 == k then (k, v) else p) := by
  unfold setVal
  simp only [hc, if_true]

theorem setVal_neg (kvs : VarDict) (k : String) (v : JVal)
    (hc : containsKey kvs k = false) :
    setVal kvs k v = kvs ++ [(k, v)] := by
  unfold setVal
  simp only [hc, Bool.false_eq_true, if_false]

/-- The in-place update map used by `setVal` leaves key membership unchanged. -/
theorem containsKey_mapSet (kvs : VarDict) (k : String) (v : JVal) (k' : String) :
    containsKey (kvs.map (fun p => if p.1 == k then (k, v) else p)) k'
      = containsKey kvs k' := by
  induction kvs with
  | nil => rfl
  | cons p t ih =>
    obtain ⟨k0, v0⟩ := p
    rw [List.map_cons]
    by_cases hk : (k0 == k) = true
    · have hk0 : k0 = k := eq_of_beq hk
      subst hk0
      rw [if_pos hk, containsKey_cons, containsKey_cons, ih]
    · rw [if_neg hk, containsKey_cons, containsKey_cons, ih]

theorem getVal_mapSet (kvs : VarDict) (k : String) (v : JVal) (k' : String) (h : k' ≠ k) :
    getVal (kvs.map (fun p => if p.1 == k then (k, v) else p)) k' = getVal kvs k' := by
  induction kvs with
  | nil => rfl
  | cons p t ih =>
    obtain ⟨k0, v0⟩ := p
    rw [List.map_cons]
    by_cases hk : (k0 == k) = true
    · have hk0 : k0 = k := eq_of_beq hk
      subst hk0
      have hne : (k0 == k') = false := by
        simp only [beq_eq_false_iff_ne, ne_eq]
        exact fun hh => h hh.symm
      rw [if_pos hk, getVal_cons, getVal_cons, hne]
      simp only [Bool.false_eq_true, if_false, ih]
    · rw [if_neg hk, getVal_cons, getVal_cons, ih]

theorem beqStringComm (k k' : String) : (k == k') = (k' == k) := by
  by_cases hk : (k' == k) = true
  · have hk0 : k' = k := eq_of_beq hk
    subst hk0
    rfl
  · have h1 : (k' == k) = false := by simpa using hk
    have h2 : (k == k') = false := by
      simp only [beq_eq_false_iff_ne, ne_eq] at h1 ⊢
      exact fun hh => h1 hh.symm
    rw [h1, h2]

theorem containsKey_setVal (kvs : VarDict) (k : String) (v : JVal) (k' : String) :
    containsKey (setVal kvs k v) k' = (containsKey kvs k' || (k' == k)) := by
  by_cases hc : (containsKey kvs k) = true
  · rw [setVal_pos kvs k v hc, containsKey_mapSet]
    by_cases hk : (k' == k) = true
    · have hk0 : k' = k := eq_of_beq hk
      subst hk0
      simp [hc, hk]
    · simp only [hk, Bool.or_false]
  · have hc' : containsKey kvs k = false := by simpa using hc
    rw [setVal_neg kvs k v hc', containsKey_append, containsKey_cons, containsKey_nil]
    rw [Bool.or_false, beqStringComm]

theorem setVal_getVal_ne (kvs : VarDict) (k k' : String) (v : JVal) (h : k' ≠ k) :
    getVal (setVal kvs k v) k' = getVal kvs k' := by
  by_cases hc : (containsKey kvs k) = true
  · rw [setVal_pos kvs k v hc]
    exact getVal_mapSet kvs k v k' h
  · have hc' : containsKey kvs k = false := by simpa using hc
    rw [setVal_neg kvs k v hc']
    by_cases hck : (containsKey kvs k') = true
    · rw [containsKey_eq_isSome_getVal] at hck
      obtain ⟨w, hw⟩ := Option.isSome_iff_exists.mp hck
      rw [getVal_append_left _ _ _ _ hw, hw]
    · have hck' : containsKey kvs k' = false := by simpa using hck
      rw [getVal_append_right _ _ _ hck']
      rw [containsKey_eq_isSome_getVal] at hck'
      have hnone : getVal kvs k' = none := by
        cases hg : getVal kvs k' <;> simp [hg] at hck' ⊢
      have hkk : (k == k') = false := by
        simp only [beq_eq_false_iff_ne, ne_eq]
        exact fun hh => h hh.symm
      rw [hnone, getVal_cons, hkk]
      simp only [Bool.false_eq_true, if_false, getVal_nil]

theorem getVal_mapSet_self (kvs : VarDict) (k : String) (v : JVal)
    (hc : containsKey kvs k = true) :
    getVal (kvs.map (fun p => if p.1 == k then (k, v) else p)) k = some v := by
  induction kvs with
  | nil => rw [containsKey_nil] at hc; exact absurd hc (by simp)
  | cons p t ih =>
    obtain ⟨k0, v0⟩ := p
    rw [containsKey_cons] at hc
    rw [List.map_cons]
    by_cases hk : (k0 == k) = true
    · rw [if_pos hk, getVal_cons]
      simp
    · have hkf : (k0 == k) = false := by simpa using hk
      rw [hkf, Bool.false_or] at hc
      rw [if_neg hk, getVal_cons, hkf]
      simp only [Bool.false_eq_true, if_false]
      exact ih hc

theorem setVal_getVal_self (kvs : VarDict) (k : String) (v : JVal) :
    getVal (setVal kvs k v) k = some v := by
  by_cases hc : (containsKey kvs k) = true
  · rw [setVal_pos kvs k v hc]
    exact getVal_mapSet_self kvs k v hc
  · have hc' : containsKey kvs k = false := by simpa using hc
    rw [setVal_neg kvs k v hc', getVal_append_right _ _ _ hc', getVal_cons]
    simp

/-- Every entry of `setVal kvs k v` whose key is `k` is exactly `(k, v)`. -/
theorem setVal_mem_eq (kvs : VarDict) (k : String) (v : JVal) (q : String × JVal)
    (hq : q ∈ setVal kvs k v) (hk : q.1 = k) : q = (k, v) := by
  by_cases hc : (containsKey kvs k) = true
  · rw [setVal_pos kvs k v hc] at hq
    rw [List.mem_map] at hq
    obtain ⟨p, _, hp⟩ := hq
    by_cases hpk : (p.1 == k) = true
    · rw [if_pos hpk] at hp
      exact hp.symm
    · rw [if_neg hpk] at hp
      rw [hp] at hpk
      rw [hk] at hpk
      simp at hpk
  · have hc' : containsKey kvs k = false := by simpa using hc
    rw [setVal_neg kvs k v hc'] at hq
    rcases List.mem_append.mp hq with hmem | hmem
    · have hmm := containsKey_of_mem kvs q hmem
      rw [hk] at hmm
      rw [hmm] at hc'
      exact absurd hc' (by simp)
    · simpa using hmem

/-- Rewriting every key-`k` entry to `(k, v)` is a no-op when they already
all equal `(k, v)`. -/
theorem mapSet_eq_self (kvs : VarDict) (k : String) (v : JVal)
    (h : ∀ q ∈ kvs, q.1 = k → q = (k, v)) :
    kvs.map (fun p => if p.1 == k then (k, v) else p) = kvs := by
  induction kvs with
  | nil => rfl
  | cons p t ih =>
    rw [List.map_cons]
    have ht : t.map (fun p => if p.1 == k then (k, v) else p) = t :=
      ih (fun q hq hqk => h q (List.mem_cons_of_mem p hq) hqk)
    rw [ht]
    by_cases hp : (p.1 == k) = true
    · have hpv : p = (k, v) := h p (List.mem_cons_self p t) (eq_of_beq hp)
      rw [if_pos hp, hpv]
    · rw [if_neg hp]

/-- If every entry with key `k` is already `(k, v)`, updating is a no-op. -/
theorem setVal_eq_self (kvs : VarDict) (k : String) (v : JVal)
    (hc : containsKey kvs k = true)
    (h : ∀ q ∈ kvs, q.1 = k → q = (k, v)) : setVal kvs k v = kvs := by
  rw [setVal_pos kvs k v hc]
  exact mapSet_eq_self kvs k v h

/-! ## Properties of the merge loops -/

theorem setVal_mem_cases (kvs : VarDict) (k : String) (v : JVal) (q : String × JVal)
    (hq : q ∈ setVal kvs k v) : q = (k, v) ∨ q ∈ kvs := by
  by_cases hc : (containsKey kvs k) = true
  · rw [setVal_pos kvs k v hc] at hq
    rw [List.mem_map] at hq
    obtain ⟨p, hp, hfp⟩ := hq
    by_cases hpk : (p.1 == k) = true
    · rw [if_pos hpk] at hfp
      exact Or.inl hfp.symm
    · rw [if_neg hpk] at hfp
      exact Or.inr (hfp ▸ hp)
  · have hc' : containsKey kvs k = false := by simpa using hc
    rw [setVal_neg kvs k v hc'] at hq
    rcases List.mem_append.mp hq with hmem | hmem
    · exact Or.inr hmem
    · exact Or.inl (by simpa using hmem)

theorem mergeVarsAux_nil (res : VarDict) : mergeVarsAux res [] = .ok res := rfl

theorem mergeVarsAux_cons (res : VarDict) (k : String) (hv : JVal) (rest : VarDict) :
    mergeVarsAux res ((k, hv) :: rest)
      = if containsKey res k then
          match merge_values ((getVal res k).getD .null) hv k with
          | .error e => .error e
          | .ok mv => mergeVarsAux (setVal res k mv) rest
        else mergeVarsAux (res ++ [(k, hv)]) rest := rfl

/-- The merge loop only ever adds keys to the accumulator. -/
theorem mergeVarsAux_containsKey (higher : VarDict) :
    ∀ res out k, mergeVarsAux res higher = .ok out → containsKey res k = true →
      containsKey out k = true := by
  induction higher with
  | nil =>
    intro res out k h hc
    rw [mergeVarsAux_nil] at h
    cases h
    exact hc
  | cons p rest ih =>
    obtain ⟨k0, hv⟩ := p
    intro res out k h hc
    rw [mergeVarsAux_cons] at h
    by_cases hck : (containsKey res k0) = true
    · rw [if_pos hck] at h
      cases hmv : merge_values ((getVal res k0).getD .null) hv k0 with
      | error e => rw [hmv] at h; cases h
      | ok mv =>
        rw [hmv] at h
        refine ih _ _ _ h ?hc
        rw [containsKey_setVal, hc, Bool.true_or]
    · rw [if_neg hck] at h
      refine ih _ _ _ h ?hc2
      rw [containsKey_append, hc, Bool.true_or]

/-- Every key of the higher-priority dict ends up in the result. -/
theorem mergeVarsAux_containsKey_higher (higher : VarDict) :
    ∀ res out, mergeVarsAux res higher = .ok out →
      ∀ p ∈ higher, containsKey out p.1 = true := by
  induction higher with
  | nil => intro res out _ p hp; cases hp
  | cons q rest ih =>
    obtain ⟨k0, hv⟩ := q
    intro res out h p hp
    rw [mergeVarsAux_cons] at h
    rcases List.mem_cons.mp hp with hp0 | hprest
    · subst hp0
      by_cases hck : (containsKey res k0) = true
      · rw [if_pos hck] at h
        cases hmv : merge_values ((getVal res k0).getD .null) hv k0 with
        | error e => rw [hmv] at h; cases h
        | ok mv =>
          rw [hmv] at h
          refine mergeVarsAux_containsKey rest _ _ _ h ?hc
          rw [containsKey_setVal]
          simp
      · rw [if_neg hck] at h
        refine mergeVarsAux_containsKey rest _ _ _ h ?hc2
        rw [containsKey_append, containsKey_cons]
        simp
    · by_cases hck : (containsKey res k0) = true
      · rw [if_pos hck] at h
        cases hmv : merge_values ((getVal res k0).getD .null) hv k0 with
        | error e => rw [hmv] at h; cases h
        | ok mv => rw [hmv] at h; exact ih _ _ h p hprest
      · rw [if_neg hck] at h
        exact ih _ _ h p hprest

/-- Keys untouched by the loop keep their value. -/
theorem mergeVarsAux_getVal_preserve (rest : VarDict) :
    ∀ res out k, (∀ p ∈ rest, p.1 ≠ k) → mergeVarsAux res rest = .ok out →
      getVal out k = getVal res k := by
  induction rest with
  | nil =>
    intro res out k _ h
    rw [mergeVarsAux_nil] at h
    cases h
    rfl
  | cons q t ih =>
    obtain ⟨k0, hv⟩ := q
    intro res out k hne h
    have hk0 : k0 ≠ k := hne (k0, hv) (List.mem_cons_self _ _)
    have hnet : ∀ p ∈ t, p.1 ≠ k := fun p hp => hne p (List.mem_cons_of_mem _ hp)
    rw [mergeVarsAux_cons] at h
    by_cases hck : (containsKey res k0) = true
    · rw [if_pos hck] at h
      cases hmv : merge_values ((getVal res k0).getD .null) hv k0 with
      | error e => rw [hmv] at h; cases h
      | ok mv =>
        rw [hmv] at h
        rw [ih _ _ _ hnet h]
        exact setVal_getVal_ne res k0 k mv (fun hh => hk0 hh.symm)
    · rw [if_neg hck] at h
      rw [ih _ _ _ hnet h]
      by_cases hgv : getVal res k = none
      · rw [hgv]
        have hcf : containsKey res k = false := by
          rw [containsKey_eq_isSome_getVal, hgv]; rfl
        rw [getVal_append_right _ _ _ hcf, getVal_cons]
        have : (k0 == k) = false := by
          simp only [beq_eq_false_iff_ne, ne_eq]; exact hk0
        rw [this]
        simp only [Bool.false_eq_true, if_false, getVal_nil]
      · obtain ⟨w, hw⟩ := Option.ne_none_iff_exists.mp hgv
        rw [← hw]
        exact getVal_append_left _ _ _ _ hw.symm

/-- Entries at an untouched key are preserved exactly. -/
theorem mergeVarsAux_entries_preserve (rest : VarDict) :
    ∀ res out k v, (∀ p ∈ rest, p.1 ≠ k) →
      (∀ q ∈ res, q.1 = k → q = (k, v)) →
      mergeVarsAux res rest = .ok out →
      ∀ q ∈ out, q.1 = k → q = (k, v) := by
  induction rest with
  | nil =>
    intro res out k v _ hres h
    rw [mergeVarsAux_nil] at h
    cases h
    exact hres
  | cons q0 t ih =>
    obtain ⟨k0, hv⟩ := q0
    intro res out k v hne hres h
    have hk0 : k0 ≠ k := hne (k0, hv) (List.mem_cons_self _ _)
    have hnet : ∀ p ∈ t, p.1 ≠ k := fun p hp => hne p (List.mem_cons_of_mem _ hp)
    rw [mergeVarsAux_cons] at h
    by_cases hck : (containsKey res k0) = true
    · rw [if_pos hck] at h
      cases hmv : merge_values ((getVal res k0).getD .null) hv k0 with
      | error e => rw [hmv] at h; cases h
      | ok mv =>
        rw [hmv] at h
        refine ih _ _ _ _ hnet ?hpres h
        intro q hq hqk
        rcases setVal_mem_cases res k0 mv q hq with hq1 | hq2
        · rw [hq1] at hqk
          exact absurd hqk hk0
        · exact hres q hq2 hqk
    · rw [if_neg hck] at h
      refine ih _ _ _ _ hnet ?hpres2 h
      intro q hq hqk
      rcases List.mem_append.mp hq with hmem | hmem
      · exact hres q hmem hqk
      · have : q = (k0, hv) := by simpa using hmem
        rw [this] at hqk
        exact absurd hqk hk0

/-! ## Claim C1: explicit null from a higher-priority layer -/

/-- The first branch of `_merge_values`: a higher-priority `None` never
overwrites; the lower value is returned unchanged. -/
theorem merge_values_higher_null (lv : JVal) (key : String) :
    merge_values lv .null key = .ok lv := by
  unfold merge_values
  rw [if_pos rfl]

/-- If the higher dict binds `k` (exactly once) to `null` and the lower
accumulator binds `k` to `lv`, the loop leaves `lv` in place. -/
theorem mergeVarsAux_null_overridden (higher : VarDict) :
    ∀ res out k lv, (higher.map Prod.fst).Nodup →
      getVal res k = some lv → getVal higher k = some .null →
      mergeVarsAux res higher = .ok out → getVal out k = some lv := by
  induction higher with
  | nil =>
    intro res out k lv _ _ hh _
    rw [getVal_nil] at hh
    cases hh
  | cons q rest ih =>
    obtain ⟨k0, hv⟩ := q
    intro res out k lv hnodup hres hh h
    rw [List.map_cons, List.nodup_cons] at hnodup
    rw [getVal_cons] at hh
    rw [mergeVarsAux_cons] at h
    by_cases hk0 : (k0 == k) = true
    · have hk0e : k0 = k := eq_of_beq hk0
      subst hk0e
      rw [if_pos hk0] at hh
      cases hh
      have hck : containsKey res k0 = true := containsKey_of_getVal res k0 lv hres
      rw [if_pos hck, hres] at h
      simp only [Option.getD_some] at h
      rw [merge_values_higher_null] at h
      have hrest : ∀ p ∈ rest, p.1 ≠ k0 := by
        intro p hp hpk
        have hmm := List.mem_map_of_mem Prod.fst hp
        rw [hpk] at hmm
        exact hnodup.1 hmm
      rw [mergeVarsAux_getVal_preserve rest _ _ _ hrest h]
      exact setVal_getVal_self res k0 lv
    · rw [if_neg hk0] at hh
      have hk0ne : k0 ≠ k := by simpa using hk0
      by_cases hck : (containsKey res k0) = true
      · rw [if_pos hck] at h
        cases hmv : merge_values ((getVal res k0).getD .null) hv k0 with
        | error e => rw [hmv] at h; cases h
        | ok mv =>
          rw [hmv] at h
          refine ih _ _ _ _ hnodup.2 ?hres hh h
          rw [setVal_getVal_ne res k0 k mv (fun hkk => hk0ne hkk.symm)]
          exact hres
      · rw [if_neg hck] at h
        exact ih _ _ _ _ hnodup.2 (getVal_append_left _ _ _ _ hres) hh h

/-- C1, counterexample: merging `{"x": 1}` (lower) with `{"x": null}`
(higher) yields `{"x": 1}`, not `{"x": null}` — the explicit higher-priority
`null` does NOT overwrite the lower non-null scalar. -/
theorem c1_counterexample :
    merge_variables [("x", JVal.num 1)] [("x", JVal.null)]
        = .ok [("x", JVal.num 1)]
      ∧ getVal [("x", JVal.num 1)] "x" = some (JVal.num 1)
      ∧ some (JVal.num 1) ≠ some JVal.null := by
  decide

/-- C1, amended: when both dicts bind `k` and the higher-priority value at
`k` is `null`, the merged dict maps `k` to the LOWER value — the `None`
guard in `_merge_values` returns the lower value, so an explicit higher
`null` never overwrites. -/
theorem c1_amended (lower higher out : VarDict) (k : String) (lv : JVal)
    (hnodup : (higher.map Prod.fst).Nodup)
    (hl : getVal lower k = some lv) (hh : getVal higher k = some .null)
    (hm : merge_variables lower higher = .ok out) :
    getVal out k = some lv := by
  unfold merge_variables at hm
  by_cases hle : lower.isEmpty
  · rw [List.isEmpty_iff.mp hle, getVal_nil] at hl
    cases hl
  · by_cases hhe : higher.isEmpty
    · rw [List.isEmpty_iff.mp hhe, getVal_nil] at hh
      cases hh
    · simp only [hle, hhe, Bool.false_eq_true, if_false] at hm
      exact mergeVarsAux_null_overridden higher lower out k lv hnodup hl hh hm

/-- Witness for `c1_amended` at a concrete input. -/
theorem c1_amended_witness :
    getVal [("x", JVal.num 1), ("y", JVal.str "s"), ("z", JVal.num 3)] "x"
      = some (JVal.num 1) :=
  c1_amended [("x", JVal.num 1), ("y", JVal.str "s")]
    [("x", JVal.null), ("z", JVal.num 3)]
    [("x", JVal.num 1), ("y", JVal.str "s"), ("z", JVal.num 3)]
    "x" (JVal.num 1) (by decide) (by decide) (by decide) (by decide)

/-! ## Python equality, hashability, and well-formed values -/

theorem pyEq_null : pyEq .null .null = true := rfl

theorem pyEq_bool (a b : Bool) : pyEq (.bool a) (.bool b) = (a == b) := rfl

theorem pyEq_num (n m : Int) : pyEq (.num n) (.num m) = (n == m) := rfl

theorem pyEq_str (a b : String) : pyEq (.str a) (.str b) = (a == b) := rfl

theorem pyEq_list (xs ys : List JVal) : pyEq (.list xs) (.list ys) = pyEqList xs ys := rfl

theorem pyEq_obj (d1 d2 : VarDict) :
    pyEq (.obj d1) (.obj d2) = (d1.length == d2.length && pyEqEntries d1 d2) := rfl

theorem pyMem_nil (x : JVal) : pyMem x [] = false := rfl

theorem pyMem_cons (x y : JVal) (l : List JVal) :
    pyMem x (y :: l) = (pyEq y x || pyMem x l) := by
  simp [pyMem]

theorem pyMem_append (x : JVal) (l1 l2 : List JVal) :
    pyMem x (l1 ++ l2) = (pyMem x l1 || pyMem x l2) := by
  simp [pyMem, List.any_append]

theorem pyMem_of_mem (l : List JVal) (x : JVal) (hx : x ∈ l) (hr : pyEq x x = true) :
    pyMem x l = true := by
  unfold pyMem
  rw [List.any_eq_true]
  exact ⟨x, hx, hr⟩

theorem pyEq_false_of_pyMem_false (l : List JVal) (x y : JVal) (hy : y ∈ l)
    (h : pyMem x l = false) : pyEq y x = false := by
  by_cases hp : pyEq y x = true
  · have hm : pyMem x l = true := by
      unfold pyMem
      rw [List.any_eq_true]
      exact ⟨y, hy, hp⟩
    rw [hm] at h
    cases h
  · simpa using hp

theorem pyEq_refl_scalar (v : JVal) (h : hashable v = true) : pyEq v v = true := by
  cases v with
  | null => rfl
  | bool b => rw [pyEq_bool]; simp
  | num n => rw [pyEq_num]; simp
  | str s => rw [pyEq_str]; simp
  | list xs => simp [hashable] at h
  | obj kvs => simp [hashable] at h

theorem sizeOf_val_lt_obj (kvs : VarDict) (p : String × JVal) (hp : p ∈ kvs) :
    sizeOf p.2 < sizeOf (JVal.obj kvs) := by
  induction kvs with
  | nil => cases hp
  | cons q rest ih =>
    obtain ⟨k0, v0⟩ := q
    rcases List.mem_cons.mp hp with h0 | hr
    · subst h0
      simp only [JVal.obj.sizeOf_spec, List.cons.sizeOf_spec, Prod.mk.sizeOf_spec]
      omega
    · have := ih hr
      simp only [JVal.obj.sizeOf_spec, List.cons.sizeOf_spec, Prod.mk.sizeOf_spec] at this ⊢
      omega

theorem sizeOf_elem_lt_list (xs : List JVal) (x : JVal) (hx : x ∈ xs) :
    sizeOf x < sizeOf (JVal.list xs) := by
  induction xs with
  | nil => cases hx
  | cons y rest ih =>
    rcases List.mem_cons.mp hx with h0 | hr
    · subst h0
      simp only [JVal.list.sizeOf_spec, List.cons.sizeOf_spec]
      omega
    · have := ih hr
      simp only [JVal.list.sizeOf_spec, List.cons.sizeOf_spec] at this ⊢
      omega

theorem wellFormed_obj (kvs : VarDict) : wellFormed (.obj kvs) = wellFormedEntries kvs := rfl

theorem wellFormed_list (l : List JVal) :
    wellFormed (.list l)
      = ((!is_tag_list l || l.all (fun t => tagBenign t)) && wellFormedList l) := rfl

theorem wellFormedList_cons (x : JVal) (xs : List JVal) :
    wellFormedList (x :: xs) = (wellFormed x && wellFormedList xs) := rfl

theorem wellFormedList_values (l : List JVal) (h : wellFormedList l = true) :
    ∀ x ∈ l, wellFormed x = true := by
  induction l with
  | nil => intro x hx; cases hx
  | cons y ys ih =>
    rw [wellFormedList_cons, Bool.and_eq_true] at h
    intro x hx
    rcases List.mem_cons.mp hx with h0 | hr
    · subst h0; exact h.1
    · exact ih h.2 x hr

theorem wellFormed_list_elems (l : List JVal) (h : wellFormed (.list l) = true) :
    ∀ x ∈ l, wellFormed x = true := by
  rw [wellFormed_list, Bool.and_eq_true] at h
  exact wellFormedList_values l h.2

theorem wellFormed_list_benign (l : List JVal) (h : wellFormed (.list l) = true)
    (htag : is_tag_list l = true) : ∀ t ∈ l, tagBenign t = true := by
  rw [wellFormed_list, Bool.and_eq_true] at h
  have h1 := h.1
  rw [htag] at h1
  simp only [Bool.not_true, Bool.false_or] at h1
  exact List.all_eq_true.mp h1

theorem wellFormedEntries_cons (k : String) (v : JVal) (rest : VarDict) :
    wellFormedEntries ((k, v) :: rest)
      = (!containsKey rest k && (wellFormed v && wellFormedEntries rest)) := rfl

theorem wellFormedEntries_head_fresh (k : String) (v : JVal) (rest : VarDict)
    (h : wellFormedEntries ((k, v) :: rest) = true) :
    containsKey rest k = false ∧ wellFormed v = true ∧ wellFormedEntries rest = true := by
  rw [wellFormedEntries_cons, Bool.and_eq_true, Bool.and_eq_true] at h
  exact ⟨by simpa using h.1, h.2.1, h.2.2⟩

theorem wellFormedEntries_values (kvs : VarDict) (h : wellFormedEntries kvs = true) :
    ∀ p ∈ kvs, wellFormed p.2 = true := by
  induction kvs with
  | nil => intro p hp; cases hp
  | cons q rest ih =>
    obtain ⟨k, v⟩ := q
    obtain ⟨_, hv, hrest⟩ := wellFormedEntries_head_fresh k v rest h
    intro p hp
    rcases List.mem_cons.mp hp with h0 | hr
    · subst h0; exact hv
    · exact ih hrest p hr

theorem not_key_of_containsKey_false (kvs : VarDict) (k : String)
    (h : containsKey kvs k = false) : ∀ p ∈ kvs, p.1 ≠ k := by
  intro p hp hpk
  have hm := containsKey_of_mem kvs p hp
  rw [hpk, h] at hm
  cases hm

theorem wellFormedEntries_unique (kvs : VarDict) (h : wellFormedEntries kvs = true) :
    ∀ p ∈ kvs, ∀ q ∈ kvs, q.1 = p.1 → q = p := by
  induction kvs with
  | nil => intro p hp; cases hp
  | cons e rest ih =>
    obtain ⟨k, v⟩ := e
    obtain ⟨hfresh, _, hrest⟩ := wellFormedEntries_head_fresh k v rest h
    have hne := not_key_of_containsKey_false rest k hfresh
    intro p hp q hq hqp
    rcases List.mem_cons.mp hp with hp0 | hpr
    · subst hp0
      rcases List.mem_cons.mp hq with hq0 | hqr
      · exact hq0
      · exact absurd hqp (hne q hqr)
    · rcases List.mem_cons.mp hq with hq0 | hqr
      · subst hq0
        exact absurd hqp.symm (hne p hpr)
      · exact ih hrest p hpr q hqr hqp

theorem getVal_of_mem_unique (res : VarDict) (p : String × JVal)
    (hmem : p ∈ res) (huniq : ∀ q ∈ res, q.1 = p.1 → q = p) :
    getVal res p.1 = some p.2 := by
  induction res with
  | nil => cases hmem
  | cons q rest ih =>
    obtain ⟨k0, v0⟩ := q
    rw [getVal_cons]
    by_cases hk : (k0 == p.1) = true
    · have h0 : (k0, v0) = p := huniq (k0, v0) (List.mem_cons_self _ _) (eq_of_beq hk)
      rw [if_pos hk, ← h0]
    · rw [if_neg hk]
      rcases List.mem_cons.mp hmem with h0 | hr
      · subst h0
        simp at hk
      · exact ih hr (fun q hq hqk => huniq q (List.mem_cons_of_mem _ hq) hqk)

theorem pyEqList_refl (xs : List JVal) (h : ∀ x ∈ xs, pyEq x x = true) :
    pyEqList xs xs = true := by
  induction xs with
  | nil => rfl
  | cons x rest ih =>
    show (pyEq x x && pyEqList rest rest) = true
    rw [h x (List.mem_cons_self _ _), ih (fun y hy => h y (List.mem_cons_of_mem _ hy))]
    rfl

theorem pyEqEntries_of_getVal (sub d : VarDict)
    (h : ∀ p ∈ sub, getVal d p.1 = some p.2 ∧ pyEq p.2 p.2 = true) :
    pyEqEntries sub d = true := by
  induction sub with
  | nil => rfl
  | cons p rest ih =>
    obtain ⟨k, v⟩ := p
    have hgv : getVal d k = some v := (h (k, v) (List.mem_cons_self _ _)).1
    have hpe : pyEq v v = true := (h (k, v) (List.mem_cons_self _ _)).2
    show ((match getVal d k with
           | some w => pyEq v w
           | none => false) && pyEqEntries rest d) = true
    rw [hgv]
    show (pyEq v v && pyEqEntries rest d) = true
    rw [hpe, ih (fun q hq => h q (List.mem_cons_of_mem _ hq))]
    rfl

/-- Python `==` is reflexive on well-formed values (unlike on artificial
duplicate-key dicts, which real Python data cannot contain). -/
theorem pyEq_refl_aux :
    ∀ (n : Nat) (v : JVal), sizeOf v ≤ n → wellFormed v = true → pyEq v v = true := by
  intro n
  induction n with
  | zero =>
    intro v hv _
    exfalso
    cases v <;> simp at hv
  | succ n ih =>
    intro v hsize hwf
    cases v with
    | null => rfl
    | bool b => rw [pyEq_bool]; simp
    | num m => rw [pyEq_num]; simp
    | str s => rw [pyEq_str]; simp
    | list xs =>
      rw [pyEq_list]
      refine pyEqList_refl xs ?hel
      intro x hx
      have hlt := sizeOf_elem_lt_list xs x hx
      exact ih x (by omega) (wellFormed_list_elems xs hwf x hx)
    | obj d =>
      rw [pyEq_obj]
      have hwfe : wellFormedEntries d = true := hwf
      have hent : pyEqEntries d d = true := by
        refine pyEqEntries_of_getVal d d ?hentp
        intro p hp
        have hlt := sizeOf_val_lt_obj d p hp
        refine ⟨getVal_of_mem_unique d p hp (wellFormedEntries_unique d hwfe p hp), ?r⟩
        exact ih p.2 (by omega) (wellFormedEntries_values d hwfe p hp)
      rw [hent]
      simp

theorem pyEq_refl (v : JVal) (hwf : wellFormed v = true) : pyEq v v = true :=
  pyEq_refl_aux (sizeOf v) v (Nat.le_refl _) hwf

/-! ## Tag-list merge: equations and characterization -/

theorem merge_values_lists (ll hl : List JVal) (key : String) :
    merge_values (.list ll) (.list hl) key = (merge_lists ll hl key).map .list := rfl

theorem merge_values_objs (ld hd : VarDict) (key : String) :
    merge_values (.obj ld) (.obj hd) key = (merge_dictionaries ld hd key).map .obj := rfl

theorem mergeTagAux_nil (hk acc : List JVal) : mergeTagAux hk acc [] = .ok acc := rfl

theorem mergeTagAux_obj (hk acc : List JVal) (kvs : VarDict) (rest : List JVal) :
    mergeTagAux hk acc (.obj kvs :: rest)
      = match getVal kvs "key" with
        | some tagKey =>
          if hashable tagKey then
            if pyMem tagKey hk then mergeTagAux hk acc rest
            else mergeTagAux hk (acc ++ [.obj kvs]) rest
          else .error ()
        | none => mergeTagAux hk acc rest := rfl

theorem mergeTagAux_obj_some_hash (hk acc : List JVal) (kvs : VarDict) (rest : List JVal)
    (tagKey : JVal) (hgk : getVal kvs "key" = some tagKey) (hh : hashable tagKey = true) :
    mergeTagAux hk acc (.obj kvs :: rest)
      = if pyMem tagKey hk then mergeTagAux hk acc rest
        else mergeTagAux hk (acc ++ [.obj kvs]) rest := by
  rw [mergeTagAux_obj, hgk]
  show (if hashable tagKey then
      (if pyMem tagKey hk then mergeTagAux hk acc rest
       else mergeTagAux hk (acc ++ [.obj kvs]) rest)
    else .error ()) = _
  rw [if_pos hh]

theorem mergeTagAux_obj_some_unhash (hk acc : List JVal) (kvs : VarDict) (rest : List JVal)
    (tagKey : JVal) (hgk : getVal kvs "key" = some tagKey) (hh : hashable tagKey = false) :
    mergeTagAux hk acc (.obj kvs :: rest) = .error () := by
  rw [mergeTagAux_obj, hgk]
  show (if hashable tagKey then
      (if pyMem tagKey hk then mergeTagAux hk acc rest
       else mergeTagAux hk (acc ++ [.obj kvs]) rest)
    else .error ()) = .error ()
  rw [if_neg (by simp [hh])]

theorem mergeTagAux_obj_none (hk acc : List JVal) (kvs : VarDict) (rest : List JVal)
    (hgk : getVal kvs "key" = none) :
    mergeTagAux hk acc (.obj kvs :: rest) = mergeTagAux hk acc rest := by
  rw [mergeTagAux_obj, hgk]

theorem mergeTagAux_list (hk acc : List JVal) (xs : List JVal) (rest : List JVal) :
    mergeTagAux hk acc (.list xs :: rest)
      = if pyMem (.str "key") xs then .error () else mergeTagAux hk acc rest := rfl

theorem mergeTagAux_str (hk acc : List JVal) (s : String) (rest : List JVal) :
    mergeTagAux hk acc (.str s :: rest)
      = if strContainsKey s then .error () else mergeTagAux hk acc rest := rfl

theorem mergeTagAux_null (hk acc : List JVal) (rest : List JVal) :
    mergeTagAux hk acc (.null :: rest) = .error () := rfl

theorem mergeTagAux_bool (hk acc : List JVal) (b : Bool) (rest : List JVal) :
    mergeTagAux hk acc (.bool b :: rest) = .error () := rfl

theorem mergeTagAux_num (hk acc : List JVal) (n : Int) (rest : List JVal) :
    mergeTagAux hk acc (.num n :: rest) = .error () := rfl

theorem tagSurvives_obj (hk : List JVal) (kvs : VarDict) :
    tagSurvives hk (.obj kvs)
      = match getVal kvs "key" with
        | some tagKey => hashable tagKey && !pyMem tagKey hk
        | none => false := rfl

theorem tagSurvives_obj_some (hk : List JVal) (kvs : VarDict) (tagKey : JVal)
    (hgk : getVal kvs "key" = some tagKey) :
    tagSurvives hk (.obj kvs) = (hashable tagKey && !pyMem tagKey hk) := by
  rw [tagSurvives_obj, hgk]

theorem tagSurvives_obj_none (hk : List JVal) (kvs : VarDict)
    (hgk : getVal kvs "key" = none) :
    tagSurvives hk (.obj kvs) = false := by
  rw [tagSurvives_obj, hgk]

theorem tagBenign_obj (kvs : VarDict) :
    tagBenign (.obj kvs)
      = match getVal kvs "key" with
        | some tagKey => hashable tagKey
        | none => true := rfl

/-- On benign lower elements the tag-merge loop returns the accumulator
extended with exactly the surviving lower elements, in order. -/
theorem mergeTagAux_benign (ll : List JVal) :
    ∀ acc hk, (∀ lt ∈ ll, tagBenign lt = true) →
      mergeTagAux hk acc ll = .ok (acc ++ ll.filter (fun lt => tagSurvives hk lt)) := by
  induction ll with
  | nil => intro acc hk _; rw [mergeTagAux_nil, List.filter_nil, List.append_nil]
  | cons lt rest ih =>
    intro acc hk hben
    have hbrest : ∀ x ∈ rest, tagBenign x = true :=
      fun x hx => hben x (List.mem_cons_of_mem _ hx)
    have hblt : tagBenign lt = true := hben lt (List.mem_cons_self _ _)
    cases lt with
    | obj kvs =>
      cases hgk : getVal kvs "key" with
      | some tagKey =>
        have hhash : hashable tagKey = true := by
          rw [tagBenign_obj, hgk] at hblt
          exact hblt
        rw [mergeTagAux_obj_some_hash hk acc kvs rest tagKey hgk hhash]
        by_cases hc : (pyMem tagKey hk) = true
        · rw [if_pos hc, ih acc hk hbrest, List.filter_cons]
          have hsv : tagSurvives hk (.obj kvs) = false := by
            rw [tagSurvives_obj_some hk kvs tagKey hgk, hc]
            simp
          rw [hsv]
          simp only [Bool.false_eq_true, if_false]
        · have hc' : (pyMem tagKey hk) = false := by simpa using hc
          rw [if_neg hc, ih _ hk hbrest, List.filter_cons]
          have hsv : tagSurvives hk (.obj kvs) = true := by
            rw [tagSurvives_obj_some hk kvs tagKey hgk, hc', hhash]
            rfl
          rw [hsv, if_pos rfl, List.append_assoc, List.singleton_append]
      | none =>
        rw [mergeTagAux_obj_none hk acc kvs rest hgk]
        rw [ih acc hk hbrest, List.filter_cons]
        rw [tagSurvives_obj_none hk kvs hgk]
        simp only [Bool.false_eq_true, if_false]
    | str s =>
      have hs : strContainsKey s = false := by
        unfold tagBenign at hblt
        simpa using hblt
      rw [mergeTagAux_str, hs]
      simp only [Bool.false_eq_true, if_false]
      rw [ih acc hk hbrest, List.filter_cons]
      have : tagSurvives hk (.str s) = false := rfl
      rw [this]
      simp only [Bool.false_eq_true, if_false]
    | list xs =>
      have hs : (pyMem (.str "key") xs) = false := by
        unfold tagBenign at hblt
        simpa using hblt
      rw [mergeTagAux_list, hs]
      simp only [Bool.false_eq_true, if_false]
      rw [ih acc hk hbrest, List.filter_cons]
      have : tagSurvives hk (.list xs) = false := rfl
      rw [this]
      simp only [Bool.false_eq_true, if_false]
    | null => simp [tagBenign] at hblt
    | bool b => simp [tagBenign] at hblt
    | num n => simp [tagBenign] at hblt

/-- A non-benign lower element makes the tag-merge loop raise. -/
theorem mergeTagAux_error (ll : List JVal) :
    ∀ acc hk, (∃ lt ∈ ll, tagBenign lt = false) →
      mergeTagAux hk acc ll = .error () := by
  induction ll with
  | nil => intro acc hk h; obtain ⟨lt, hmem, _⟩ := h; cases hmem
  | cons lt rest ih =>
    intro acc hk h
    by_cases hblt : tagBenign lt = true
    · have hrest : ∃ x ∈ rest, tagBenign x = false := by
        obtain ⟨x, hmem, hx⟩ := h
        rcases List.mem_cons.mp hmem with h0 | hr
        · subst h0; rw [hblt] at hx; cases hx
        · exact ⟨x, hr, hx⟩
      cases lt with
      | obj kvs =>
        cases hgk : getVal kvs "key" with
        | some tagKey =>
          have hhash : hashable tagKey = true := by
            rw [tagBenign_obj, hgk] at hblt
            exact hblt
          rw [mergeTagAux_obj_some_hash hk acc kvs rest tagKey hgk hhash]
          by_cases hc : (pyMem tagKey hk) = true
          · rw [if_pos hc]; exact ih acc hk hrest
          · rw [if_neg hc]; exact ih _ hk hrest
        | none =>
          rw [mergeTagAux_obj_none hk acc kvs rest hgk]
          exact ih acc hk hrest
      | str s =>
        have hs : strContainsKey s = false := by
          unfold tagBenign at hblt; simpa using hblt
        rw [mergeTagAux_str, hs]
        simp only [Bool.false_eq_true, if_false]
        exact ih acc hk hrest
      | list xs =>
        have hs : (pyMem (.str "key") xs) = false := by
          unfold tagBenign at hblt; simpa using hblt
        rw [mergeTagAux_list, hs]
        simp only [Bool.false_eq_true, if_false]
        exact ih acc hk hrest
      | null => simp [tagBenign] at hblt
      | bool b => simp [tagBenign] at hblt
      | num n => simp [tagBenign] at hblt
    · have hblt' : tagBenign lt = false := by simpa using hblt
      cases lt with
      | obj kvs =>
        cases hgk : getVal kvs "key" with
        | some tagKey =>
          have hhf : hashable tagKey = false := by
            rw [tagBenign_obj, hgk] at hblt'
            exact hblt'
          exact mergeTagAux_obj_some_unhash hk acc kvs rest tagKey hgk hhf
        | none =>
          rw [tagBenign_obj, hgk] at hblt'
          exact Bool.noConfusion hblt'
      | str s =>
        have hs : strContainsKey s = true := by
          unfold tagBenign at hblt'; simpa using hblt'
        rw [mergeTagAux_str, hs, if_pos rfl]
      | list xs =>
        have hs : (pyMem (.str "key") xs) = true := by
          unfold tagBenign at hblt'; simpa using hblt'
        rw [mergeTagAux_list, hs, if_pos rfl]
      | null => rw [mergeTagAux_null]
      | bool b => rw [mergeTagAux_bool]
      | num n => rw [mergeTagAux_num]

/-! ## Equations for the list-merge branches -/

theorem merge_lists_tag (ll hl : List JVal) (key : String)
    (hcond : ((key == "additional_tags" || key == "tags") && is_tag_list hl) = true) :
    merge_lists ll hl key = merge_tag_lists ll hl := by
  unfold merge_lists
  rw [if_pos hcond]

theorem merge_lists_union (ll hl : List JVal) (key : String)
    (hcond : ((key == "additional_tags" || key == "tags") && is_tag_list hl) = false) :
    merge_lists ll hl key
      = .ok (ll.foldl (fun res item => if pyMem item res then res else res ++ [item]) hl) := by
  unfold merge_lists
  rw [hcond]
  simp only [Bool.false_eq_true, if_false]

theorem merge_tag_lists_eq (ll hl hk : List JVal) (hkeys : tagKeysE hl = .ok hk) :
    merge_tag_lists ll hl = mergeTagAux hk hl ll := by
  unfold merge_tag_lists
  rw [hkeys]

/-! ## Claim C2: which sequences merge keyed -/

/-- C2, counterexample: under the mapping key `x` two tag-shaped sequences
are NOT merged by `key`; the dedupe-union branch runs instead, so the
lower tag `{"key": "a"}` survives although its key occurs in the higher
list. -/
theorem c2_counterexample :
    merge_values (.list [.obj [("key", .str "a")]])
        (.list [.obj [("key", .str "a"), ("value", .num 1)]]) "x"
      = .ok (.list [.obj [("key", .str "a"), ("value", .num 1)], .obj [("key", .str "a")]])
    ∧ JVal.list [.obj [("key", .str "a"), ("value", .num 1)], .obj [("key", .str "a")]]
      ≠ JVal.list [.obj [("key", .str "a"), ("value", .num 1)]] := by
  decide

/-- C2, amended: the keyed merge happens only under the mapping keys
`additional_tags` and `tags`; there, with a tag-list `higher` whose `key`
values are hashable (so that `tagKeysE` succeeds in building the key
lookup) and lower elements that are mappings containing `key` with
hashable `key` values, the result is `higher` (in order) followed by
exactly the lower elements whose `key` value is not Python-equal (`==`,
under which `True == 1`) to any higher element's `key` value.  An
unhashable `key` value on either side raises `TypeError` instead. -/
theorem c2_amended (ll hl : List JVal) (key : String) (hk : List JVal)
    (hkey : key = "additional_tags" ∨ key = "tags")
    (htag : is_tag_list hl = true)
    (hkeys : tagKeysE hl = .ok hk)
    (hlow : ∀ lt ∈ ll, ∃ kvs tagKey, lt = JVal.obj kvs ∧ getVal kvs "key" = some tagKey
        ∧ hashable tagKey = true) :
    merge_values (.list ll) (.list hl) key
      = .ok (.list (hl ++ ll.filter (fun lt => tagSurvives hk lt))) := by
  rw [merge_values_lists]
  have hcond : ((key == "additional_tags" || key == "tags") && is_tag_list hl) = true := by
    rcases hkey with h | h <;> subst h <;> rw [htag] <;> rfl
  rw [merge_lists_tag ll hl key hcond, merge_tag_lists_eq ll hl hk hkeys]
  have hben : ∀ lt ∈ ll, tagBenign lt = true := by
    intro lt hlt
    obtain ⟨kvs, tagKey, hobj, hgk, hhash⟩ := hlow lt hlt
    rw [hobj, tagBenign_obj, hgk]
    exact hhash
  rw [mergeTagAux_benign ll hl hk hben]
  rfl

/-- Witness for `c2_amended` at concrete tag lists. -/
theorem c2_amended_witness :
    merge_values (.list [.obj [("key", .str "a")], .obj [("key", .str "b")]])
        (.list [.obj [("key", .str "b"), ("value", .num 1)]]) "tags"
      = .ok (.list [.obj [("key", .str "b"), ("value", .num 1)], .obj [("key", .str "a")]]) := by
  have h := c2_amended [.obj [("key", .str "a")], .obj [("key", .str "b")]]
      [.obj [("key", .str "b"), ("value", .num 1)]] "tags" [.str "b"]
      (Or.inr rfl) (by decide) (by decide) ?hlow
  case hlow =>
    intro lt hlt
    rcases List.mem_cons.mp hlt with h1 | h2
    · exact ⟨[("key", .str "a")], .str "a", h1, by decide, by decide⟩
    · rcases List.mem_cons.mp h2 with h3 | h4
      · exact ⟨[("key", .str "b")], .str "b", h3, by decide, by decide⟩
      · cases h4
  exact h.trans (by decide)

/-! ## Claim C9: fate of non-tag elements in the keyed branch -/

/-- C9, counterexample: a lower element `5` in the keyed branch is not
silently omitted — the `TypeError` from the Python membership test
escapes, so the list merge produces no result at all. -/
theorem c9_counterexample :
    merge_lists [JVal.num 5] [JVal.obj [("key", JVal.str "a")]] "tags" = .error ()
    ∧ (Except.error () : Except Unit (List JVal)) ≠ .ok [JVal.obj [("key", JVal.str "a")]] := by
  decide

/-- C9, amended: in the keyed branch, lower elements that are mappings
without a `key` field (or whose hashable `key` value is Python-equal to a
higher key, where `True == 1`), strings not containing `key`, and lists
not containing the string `key` are silently omitted — the result is
exactly `higher` plus the surviving mappings; but a lower element that is
`null`, a boolean, a number, a string/list containing `key`, or a mapping
whose `key` value is itself a list or mapping (unhashable, so the
membership probe raises) raises a `TypeError` that aborts the merge. -/
theorem c9_amended :
    (∀ ll hl hk, tagKeysE hl = .ok hk → (∀ lt ∈ ll, tagBenign lt = true) →
      merge_tag_lists ll hl = .ok (hl ++ ll.filter (fun lt => tagSurvives hk lt)))
    ∧ (∀ ll hl, (∃ lt ∈ ll, tagBenign lt = false) → merge_tag_lists ll hl = .error ()) := by
  constructor
  · intro ll hl hk hkeys hben
    rw [merge_tag_lists_eq ll hl hk hkeys]
    exact mergeTagAux_benign ll hl hk hben
  · intro ll hl hex
    unfold merge_tag_lists
    cases hkeys : tagKeysE hl with
    | error e => cases e; rfl
    | ok hk => exact mergeTagAux_error ll hl hk hex

/-- Witness for `c9_amended`: a keyless mapping is dropped silently, a
numeric element aborts. -/
theorem c9_amended_witness :
    merge_tag_lists [JVal.obj [("value", JVal.num 1)], JVal.obj [("key", JVal.str "c")]]
        [JVal.obj [("key", JVal.str "a")]]
      = .ok [JVal.obj [("key", JVal.str "a")], JVal.obj [("key", JVal.str "c")]]
    ∧ merge_tag_lists [JVal.num 5] [JVal.obj [("key", JVal.str "a")]] = .error () := by
  constructor
  · have h := c9_amended.1 [.obj [("value", .num 1)], .obj [("key", .str "c")]]
        [.obj [("key", .str "a")]] [.str "a"] (by decide) (by decide)
    exact h.trans (by decide)
  · exact c9_amended.2 [.num 5] [.obj [("key", .str "a")]] ⟨.num 5, by decide, rfl⟩

/-! ## Claim C3: associativity and the chain law -/

theorem applyChainAux_nil (res : VarDict) : applyChainAux res [] = .ok res := rfl

theorem applyChainAux_cons (res config : VarDict) (rest : List VarDict) :
    applyChainAux res (config :: rest)
      = if config.isEmpty then applyChainAux res rest
        else
          match merge_variables res config with
          | .error e => .error e
          | .ok r => applyChainAux r rest := rfl

/-- C3, counterexample: with `B = {"x": [1]}`, `L1 = {"x": 2}`,
`L2 = {"x": [3]}`, merging left-grouped gives `{"x": [3]}` while merging
`L1` with `L2` first and then onto `B` gives `{"x": [3, 1]}` — the deep
merge is not associative. -/
theorem c3_counterexample :
    (match merge_variables [("x", JVal.list [JVal.num 1])] [("x", JVal.num 2)] with
     | .ok r => merge_variables r [("x", JVal.list [JVal.num 3])]
     | .error e => .error e)
      = .ok [("x", JVal.list [JVal.num 3])]
    ∧ (match merge_variables [("x", JVal.num 2)] [("x", JVal.list [JVal.num 3])] with
       | .ok r => merge_variables [("x", JVal.list [JVal.num 1])] r
       | .error e => .error e)
      = .ok [("x", JVal.list [JVal.num 3, JVal.num 1])]
    ∧ ([("x", JVal.list [JVal.num 3])] : VarDict) ≠ [("x", JVal.list [JVal.num 3, JVal.num 1])] := by
  decide

/-- C3, amended: two-sided re-grouping of the binary merge fails (see the
counterexample), but the chain law does hold: applying layer `B` and then
layer `C` through the priority chain equals applying `[B, C]` at once. -/
theorem c3_amended (A B C : VarDict) :
    (match apply_priority_chain A [B] with
     | .ok r => apply_priority_chain r [C]
     | .error e => .error e)
      = apply_priority_chain A [B, C] := by
  unfold apply_priority_chain
  by_cases hB : B.isEmpty = true
  · rw [applyChainAux_cons, applyChainAux_cons, if_pos hB, if_pos hB, applyChainAux_nil]
  · rw [applyChainAux_cons, applyChainAux_cons, if_neg hB, if_neg hB]
    cases hm : merge_variables A B with
    | error e => rfl
    | ok r => rfl

/-! ## Claim C4: merging never deletes keys -/

theorem merge_dictionaries_nil (res : VarDict) (key : String) :
    merge_dictionaries res [] key = .ok res := rfl

theorem merge_dictionaries_cons (res : VarDict) (nk : String) (nhv : JVal)
    (rest : VarDict) (key : String) :
    merge_dictionaries res ((nk, nhv) :: rest) key
      = if containsKey res nk then
          match merge_values ((getVal res nk).getD .null) nhv (key ++ "." ++ nk) with
          | .error e => .error e
          | .ok mv => merge_dictionaries (setVal res nk mv) rest key
        else merge_dictionaries (res ++ [(nk, nhv)]) rest key := rfl

/-- The nested dict-merge loop only ever adds keys to the accumulator. -/
theorem merge_dictionaries_containsKey (higher : VarDict) :
    ∀ res out key k, merge_dictionaries res higher key = .ok out →
      containsKey res k = true → containsKey out k = true := by
  induction higher with
  | nil =>
    intro res out key k h hc
    rw [merge_dictionaries_nil] at h
    cases h
    exact hc
  | cons p rest ih =>
    obtain ⟨k0, hv⟩ := p
    intro res out key k h hc
    rw [merge_dictionaries_cons] at h
    by_cases hck : (containsKey res k0) = true
    · rw [if_pos hck] at h
      cases hmv : merge_values ((getVal res k0).getD .null) hv (key ++ "." ++ k0) with
      | error e => rw [hmv] at h; cases h
      | ok mv =>
        rw [hmv] at h
        refine ih _ _ _ _ h ?hc
        rw [containsKey_setVal, hc, Bool.true_or]
    · rw [if_neg hck] at h
      refine ih _ _ _ _ h ?hc2
      rw [containsKey_append, hc, Bool.true_or]

/-- The function `merge_variables` preserves every key of the lower dict. -/
theorem merge_variables_containsKey (lower higher out : VarDict) (k : String)
    (h : merge_variables lower higher = .ok out) (hc : containsKey lower k = true) :
    containsKey out k = true := by
  unfold merge_variables at h
  by_cases hle : lower.isEmpty = true
  · rw [List.isEmpty_iff.mp hle, containsKey_nil] at hc
    cases hc
  · by_cases hhe : higher.isEmpty = true
    · simp only [hle, hhe, Bool.false_eq_true, if_false, if_true] at h
      cases h
      exact hc
    · simp only [hle, hhe, Bool.false_eq_true, if_false] at h
      exact mergeVarsAux_containsKey higher lower out k h hc

/-- The priority chain preserves every key of the base. -/
theorem applyChainAux_containsKey (layers : List VarDict) :
    ∀ res out k, applyChainAux res layers = .ok out →
      containsKey res k = true → containsKey out k = true := by
  induction layers with
  | nil =>
    intro res out k h hc
    rw [applyChainAux_nil] at h
    cases h
    exact hc
  | cons config rest ih =>
    intro res out k h hc
    rw [applyChainAux_cons] at h
    by_cases hce : config.isEmpty = true
    · rw [if_pos hce] at h
      exact ih _ _ _ h hc
    · rw [if_neg hce] at h
      cases hm : merge_variables res config with
      | error e => rw [hm] at h; cases h
      | ok r =>
        rw [hm] at h
        exact ih _ _ _ h (merge_variables_containsKey res config r k hm hc)

/-- No `-key` record when every old key is still present. -/
theorem removed_records_nil_of_subset (oldConfig newConfig : VarDict)
    (h : ∀ k, containsKey oldConfig k = true → containsKey newConfig k = true) :
    removed_records oldConfig newConfig = [] := by
  unfold removed_records
  rw [List.filterMap_eq_nil_iff]
  intro p hp
  rw [h p.1 (containsKey_of_mem oldConfig p hp)]
  rfl

/-- C4: merging never deletes a key — every key of the lower-priority dict
(at the top level via `merge_variables`, inside recursively merged
sub-mappings via `_merge_dictionaries`, and through the whole priority
chain) is present in the merged result, and consequently the change
detection of the chain never produces a removed-key record. -/
theorem c4_merge_never_deletes :
    (∀ lower higher out k, merge_variables lower higher = .ok out →
      containsKey lower k = true → containsKey out k = true)
    ∧ (∀ res higher key out k, merge_dictionaries res higher key = .ok out →
      containsKey res k = true → containsKey out k = true)
    ∧ (∀ base layers out k, apply_priority_chain base layers = .ok out →
      containsKey base k = true → containsKey out k = true)
    ∧ (∀ oldConfig config newConfig, merge_variables oldConfig config = .ok newConfig →
      removed_records oldConfig newConfig = []) := by
  refine ⟨?m1, ?m2, ?m3, ?m4⟩
  case m1 => exact fun lower higher out k h hc => merge_variables_containsKey lower higher out k h hc
  case m2 => exact fun res higher key out k h hc => merge_dictionaries_containsKey higher res out key k h hc
  case m3 => exact fun base layers out k h hc => applyChainAux_containsKey layers base out k h hc
  case m4 =>
    intro oldConfig config newConfig h
    exact removed_records_nil_of_subset oldConfig newConfig
      (fun k hc => merge_variables_containsKey oldConfig config newConfig k h hc)

/-- Witness for `c4_merge_never_deletes` at concrete inputs. -/
theorem c4_witness :
    containsKey [("a", JVal.num 1), ("b", JVal.num 2)] "a" = true
    ∧ containsKey [("u", JVal.num 1), ("w", JVal.num 9)] "u" = true
    ∧ containsKey [("a", JVal.num 1), ("b", JVal.num 2)] "a" = true
    ∧ removed_records [("a", JVal.num 1)] [("a", JVal.num 1), ("b", JVal.num 2)] = [] := by
  refine ⟨?w1, ?w2, ?w3, ?w4⟩
  case w1 =>
    exact c4_merge_never_deletes.1 [("a", JVal.num 1)] [("b", JVal.num 2)]
      [("a", JVal.num 1), ("b", JVal.num 2)] "a" (by decide) (by decide)
  case w2 =>
    exact c4_merge_never_deletes.2.1 [("u", JVal.num 1)] [("w", JVal.num 9)] "p"
      [("u", JVal.num 1), ("w", JVal.num 9)] "u" (by decide) (by decide)
  case w3 =>
    exact c4_merge_never_deletes.2.2.1 [("a", JVal.num 1)] [[("b", JVal.num 2)]]
      [("a", JVal.num 1), ("b", JVal.num 2)] "a" (by decide) (by decide)
  case w4 =>
    exact c4_merge_never_deletes.2.2.2 [("a", JVal.num 1)] [("b", JVal.num 2)]
      [("a", JVal.num 1), ("b", JVal.num 2)] (by decide)

/-! ## Claims C7 and C10: entries with missing or falsy required fields -/

/-- When `not all([resource_type, resource_name, environment])` holds the
entry is returned before any layer is consulted. -/
theorem process_single_entry_skip (entry : VarDict) (cp : Option String)
    (ps os : Bool) (src : LayerSource)
    (h : (fieldTruthy entry "type" && fieldTruthy entry "resource_name"
        && fieldTruthy entry "env") = false) :
    process_single_entry entry cp ps os src = entry := by
  unfold process_single_entry
  rw [h]
  rfl

/-- When the load/merge block raises, the original entry is returned. -/
theorem process_single_entry_error_fallback (entry : VarDict) (cp : Option String)
    (ps os : Bool) (src : LayerSource)
    (h : resolve_with_layers entry cp ps os src = .error ()) :
    process_single_entry entry cp ps os src = entry := by
  unfold process_single_entry
  by_cases hc : (fieldTruthy entry "type" && fieldTruthy entry "resource_name"
      && fieldTruthy entry "env") = true
  · rw [hc, h]
    rfl
  · have hc' : (fieldTruthy entry "type" && fieldTruthy entry "resource_name"
        && fieldTruthy entry "env") = false := by simpa using hc
    rw [hc']
    rfl

/-- C7: an entry missing any of the required fields `type`,
`resource_name`, `env` is returned unchanged — for every layer source, so
no layer lookup or merge can influence the result. -/
theorem c7_missing_field_pass_through (entry : VarDict) (cp : Option String)
    (ps os : Bool) (src : LayerSource)
    (h : getVal entry "type" = none ∨ getVal entry "resource_name" = none
      ∨ getVal entry "env" = none) :
    process_single_entry entry cp ps os src = entry := by
  apply process_single_entry_skip
  rcases h with h | h | h
  · have hf : fieldTruthy entry "type" = false := by unfold fieldTruthy; rw [h]
    rw [hf, Bool.false_and, Bool.false_and]
  · have hf : fieldTruthy entry "resource_name" = false := by unfold fieldTruthy; rw [h]
    rw [hf, Bool.and_false, Bool.false_and]
  · have hf : fieldTruthy entry "env" = false := by unfold fieldTruthy; rw [h]
    rw [hf, Bool.and_false]

/-- Witness for `c7_missing_field_pass_through`: the spec example entry
`{"resource_name": "r1"}` passes through even though a product-defaults
document exists. -/
theorem c7_witness :
    process_single_entry [("resource_name", JVal.str "r1")] (some "proj") true true
        ⟨.parsed (.obj [("x", JVal.num 1)]), .missing, .missing, .missing⟩
      = [("resource_name", JVal.str "r1")] :=
  c7_missing_field_pass_through [("resource_name", JVal.str "r1")] (some "proj") true true
    ⟨.parsed (.obj [("x", JVal.num 1)]), .missing, .missing, .missing⟩
    (Or.inl (by decide))

/-- C10: a required field that is present but falsy (empty string, `0`,
`false`, `null`, empty list/dict) is treated exactly like a missing one:
the entry passes through unmodified for every layer source. -/
theorem c10_falsy_field_pass_through (entry : VarDict) (cp : Option String)
    (ps os : Bool) (src : LayerSource) (v : JVal)
    (h : getVal entry "type" = some v ∨ getVal entry "resource_name" = some v
      ∨ getVal entry "env" = some v)
    (hv : jTruthy v = false) :
    process_single_entry entry cp ps os src = entry := by
  apply process_single_entry_skip
  rcases h with h | h | h
  · have hf : fieldTruthy entry "type" = false := by
      unfold fieldTruthy; rw [h]; exact hv
    rw [hf, Bool.false_and, Bool.false_and]
  · have hf : fieldTruthy entry "resource_name" = false := by
      unfold fieldTruthy; rw [h]; exact hv
    rw [hf, Bool.and_false, Bool.false_and]
  · have hf : fieldTruthy entry "env" = false := by
      unfold fieldTruthy; rw [h]; exact hv
    rw [hf, Bool.and_false]

/-- Witness for `c10_falsy_field_pass_through`: an empty-string `type`
passes through even though a product-defaults document exists. -/
theorem c10_witness :
    process_single_entry
        [("type", JVal.str ""), ("resource_name", JVal.str "b"), ("env", JVal.str "dev")]
        (some "proj") true true
        ⟨.parsed (.obj [("x", JVal.num 1)]), .missing, .missing, .missing⟩
      = [("type", JVal.str ""), ("resource_name", JVal.str "b"), ("env", JVal.str "dev")] :=
  c10_falsy_field_pass_through
    [("type", JVal.str ""), ("resource_name", JVal.str "b"), ("env", JVal.str "dev")]
    (some "proj") true true
    ⟨.parsed (.obj [("x", JVal.num 1)]), .missing, .missing, .missing⟩
    (JVal.str "") (Or.inl (by decide)) (by decide)

/-! ## Claim C6: malformed layer documents are treated as absent -/

/-- C6: a malformed document at any of the four layer paths is treated
exactly as if the document were missing: resolution proceeds with the
remaining layers and produces the same result (in particular, a malformed
ResourceOverrides document still yields the merge of the other three
layers); since `process_single_entry` and `process_resource_entries` are
total, the malformed document never aborts an entry or the batch. -/
theorem c6_malformed_treated_as_absent :
    (∀ entry cp ps os ed cd rd, process_single_entry entry cp ps os ⟨.malformed, ed, cd, rd⟩
        = process_single_entry entry cp ps os ⟨.missing, ed, cd, rd⟩)
    ∧ (∀ entry cp ps os pd cd rd, process_single_entry entry cp ps os ⟨pd, .malformed, cd, rd⟩
        = process_single_entry entry cp ps os ⟨pd, .missing, cd, rd⟩)
    ∧ (∀ entry cp ps os pd ed rd, process_single_entry entry cp ps os ⟨pd, ed, .malformed, rd⟩
        = process_single_entry entry cp ps os ⟨pd, ed, .missing, rd⟩)
    ∧ (∀ entry cp ps os pd ed cd, process_single_entry entry cp ps os ⟨pd, ed, cd, .malformed⟩
        = process_single_entry entry cp ps os ⟨pd, ed, cd, .missing⟩) :=
  ⟨fun _ _ _ _ _ _ _ => rfl, fun _ _ _ _ _ _ _ => rfl,
   fun _ _ _ _ _ _ _ => rfl, fun _ _ _ _ _ _ _ => rfl⟩

/-! ## Claim C5: batch resolution is length-preserving and per-entry isolated -/

theorem processEntriesAux_length (entries : List VarDict) :
    ∀ cp ps os src j,
      (processEntriesAux cp ps os src j entries).length = entries.length := by
  induction entries with
  | nil => intro cp ps os src j; rfl
  | cons e rest ih =>
    intro cp ps os src j
    unfold processEntriesAux
    rw [List.length_cons, List.length_cons, ih]

theorem processEntriesAux_getD (entries : List VarDict) :
    ∀ cp ps os src j i, i < entries.length →
      (processEntriesAux cp ps os src j entries).getD i []
        = process_single_entry (entries.getD i []) cp ps os (src (j + i)) := by
  induction entries with
  | nil => intro cp ps os src j i hi; cases hi
  | cons e rest ih =>
    intro cp ps os src j i hi
    unfold processEntriesAux
    cases i with
    | zero => rfl
    | succ n =>
      have hn : n < rest.length := Nat.lt_of_succ_lt_succ hi
      rw [List.getD_cons_succ, List.getD_cons_succ]
      have harith : j + (n + 1) = j + 1 + n := by omega
      rw [harith]
      exact ih cp ps os src (j + 1) n hn

/-- C5: the batch loop returns one output per input entry, index for index;
entry `i`'s output is a function of entry `i` and its own layer documents
alone; whenever an entry's resolution is skipped (missing/falsy required
fields, or Git unconfigured) or its load/merge raises, the output at that
index is the original entry — so one entry's failure cannot disturb the
others. -/
theorem c5_batch_isolation (entries : List VarDict)
    (cloudProject extractedCP : Option String) (g ps os : Bool)
    (src : Nat → LayerSource) (i : Nat) (hi : i < entries.length) :
    (process_resource_entries entries cloudProject extractedCP g ps os src).length
      = entries.length
    ∧ (g = true →
        (process_resource_entries entries cloudProject extractedCP g ps os src).getD i []
          = process_single_entry (entries.getD i [])
              (if cpTruthy cloudProject then cloudProject else extractedCP) ps os (src i))
    ∧ (g = false →
        process_resource_entries entries cloudProject extractedCP g ps os src = entries)
    ∧ (∀ cp, resolve_with_layers (entries.getD i []) cp ps os (src i) = .error () →
        process_single_entry (entries.getD i []) cp ps os (src i) = entries.getD i [])
    ∧ (∀ cp, (fieldTruthy (entries.getD i []) "type"
          && fieldTruthy (entries.getD i []) "resource_name"
          && fieldTruthy (entries.getD i []) "env") = false →
        process_single_entry (entries.getD i []) cp ps os (src i) = entries.getD i []) := by
  refine ⟨?len, ?idx, ?skip, ?err, ?miss⟩
  case len =>
    unfold process_resource_entries
    by_cases he : entries.isEmpty = true
    · rw [if_pos he, List.isEmpty_iff.mp he]
    · rw [if_neg he]
      by_cases hg : g = true
      · rw [hg]
        simp only [Bool.not_true, Bool.false_eq_true, if_false]
        exact processEntriesAux_length entries _ ps os src 0
      · have hg' : g = false := by simpa using hg
        rw [hg']
        rfl
  case idx =>
    intro hg
    subst hg
    unfold process_resource_entries
    by_cases he : entries.isEmpty = true
    · rw [List.isEmpty_iff.mp he] at hi
      cases hi
    · rw [if_neg he]
      simp only [Bool.not_true, Bool.false_eq_true, if_false]
      have := processEntriesAux_getD entries
        (if cpTruthy cloudProject then cloudProject else extractedCP) ps os src 0 i hi
      rw [this, Nat.zero_add]
  case skip =>
    intro hg
    subst hg
    unfold process_resource_entries
    by_cases he : entries.isEmpty = true
    · rw [if_pos he, List.isEmpty_iff.mp he]
    · rw [if_neg he]
      rfl
  case err => exact fun cp h => process_single_entry_error_fallback _ cp ps os _ h
  case miss => exact fun cp h => process_single_entry_skip _ cp ps os _ h

/-- Witness for `c5_batch_isolation` at a concrete one-entry batch. -/
theorem c5_witness :
    (process_resource_entries [[("resource_name", JVal.str "r")]] none none true true true
        (fun _ => ⟨.missing, .missing, .missing, .missing⟩)).length = 1
    ∧ (process_resource_entries [[("resource_name", JVal.str "r")]] none none true true true
        (fun _ => ⟨.missing, .missing, .missing, .missing⟩)).getD 0 []
      = process_single_entry [("resource_name", JVal.str "r")]
          (if cpTruthy none then none else none) true true
          ⟨.missing, .missing, .missing, .missing⟩
    ∧ process_single_entry [("resource_name", JVal.str "r")] none true true
        ⟨.missing, .missing, .missing, .missing⟩ = [("resource_name", JVal.str "r")] := by
  have h := c5_batch_isolation [[("resource_name", JVal.str "r")]] none none true true true
    (fun _ => ⟨.missing, .missing, .missing, .missing⟩) 0 (by decide)
  exact ⟨h.1, h.2.1 rfl, h.2.2.2.2 none (by decide)⟩

/-! ## Machinery for idempotence (claim C8): list-level lemmas -/

/-- One step of the duplicate-removing union in `_merge_lists`. -/
theorem dedupe_skip (xs : List JVal) :
    ∀ acc, (∀ x ∈ xs, pyMem x acc = true) →
      xs.foldl (fun res item => if pyMem item res then res else res ++ [item]) acc
        = acc := by
  induction xs with
  | nil => intro acc _; rfl
  | cons x rest ih =>
    intro acc hall
    rw [List.foldl_cons]
    rw [if_pos (hall x (List.mem_cons_self _ _))]
    exact ih acc (fun y hy => hall y (List.mem_cons_of_mem _ hy))

theorem dedupe_fresh (xs : List JVal) :
    ∀ acc, List.Pairwise (fun a b => pyEq a b = false) xs →
      (∀ x ∈ xs, pyMem x acc = false) →
      xs.foldl (fun res item => if pyMem item res then res else res ++ [item]) acc
        = acc ++ xs := by
  induction xs with
  | nil => intro acc _ _; rw [List.foldl_nil, List.append_nil]
  | cons x rest ih =>
    intro acc hpw hfresh
    rw [List.pairwise_cons] at hpw
    rw [List.foldl_cons]
    rw [if_neg (by rw [hfresh x (List.mem_cons_self _ _)]; simp)]
    have hfresh2 : ∀ y ∈ rest, pyMem y (acc ++ [x]) = false := by
      intro y hy
      rw [pyMem_append, hfresh y (List.mem_cons_of_mem _ hy), pyMem_cons, pyMem_nil,
        hpw.1 y hy]
      rfl
    rw [ih (acc ++ [x]) hpw.2 hfresh2, List.append_assoc, List.singleton_append]

theorem dedupe_shape (xs : List JVal) :
    ∀ acc, ∃ app,
      xs.foldl (fun res item => if pyMem item res then res else res ++ [item]) acc
        = acc ++ app
      ∧ List.Pairwise (fun a b => pyEq a b = false) app
      ∧ ∀ y ∈ app, pyMem y acc = false := by
  induction xs with
  | nil =>
    intro acc
    exact ⟨[], by rw [List.foldl_nil, List.append_nil], List.Pairwise.nil, by simp⟩
  | cons x rest ih =>
    intro acc
    rw [List.foldl_cons]
    by_cases hc : (pyMem x acc) = true
    · rw [if_pos hc]
      exact ih acc
    · have hcf : pyMem x acc = false := by simpa using hc
      rw [if_neg hc]
      obtain ⟨app2, heq, hpw2, hfr2⟩ := ih (acc ++ [x])
      refine ⟨x :: app2, ?eq, ?pw, ?fresh⟩
      case eq => rw [heq, List.append_assoc, List.singleton_append]
      case pw =>
        rw [List.pairwise_cons]
        refine ⟨?hd, hpw2⟩
        intro y hy
        have hmy := hfr2 y hy
        rw [pyMem_append, pyMem_cons, pyMem_nil] at hmy
        rcases Bool.or_eq_false_iff.mp hmy with ⟨_, h2⟩
        rcases Bool.or_eq_false_iff.mp h2 with ⟨h3, _⟩
        exact h3
      case fresh =>
        intro y hy
        rcases List.mem_cons.mp hy with h0 | hr
        · subst h0
          exact hcf
        · have hmy := hfr2 y hr
          rw [pyMem_append] at hmy
          exact (Bool.or_eq_false_iff.mp hmy).1

/-- The skip property: a tag whose hashable `key` occurs among the higher
keys. -/
theorem mergeTagAux_skip_all (xs : List JVal) :
    ∀ acc hk, (∀ t ∈ xs, ∃ kvs tagKey, t = JVal.obj kvs
        ∧ getVal kvs "key" = some tagKey ∧ hashable tagKey = true
        ∧ pyMem tagKey hk = true) →
      mergeTagAux hk acc xs = .ok acc := by
  induction xs with
  | nil => intro acc hk _; rfl
  | cons t rest ih =>
    intro acc hk hall
    obtain ⟨kvs, tagKey, hobj, hgk, hhash, hcont⟩ := hall t (List.mem_cons_self _ _)
    subst hobj
    rw [mergeTagAux_obj_some_hash hk acc kvs rest tagKey hgk hhash, if_pos hcont]
    exact ih acc hk (fun u hu => hall u (List.mem_cons_of_mem _ hu))

/-- The append property: a tag whose hashable `key` is fresh. -/
theorem mergeTagAux_append_all (xs : List JVal) :
    ∀ acc hk, (∀ t ∈ xs, ∃ kvs tagKey, t = JVal.obj kvs
        ∧ getVal kvs "key" = some tagKey ∧ hashable tagKey = true
        ∧ pyMem tagKey hk = false) →
      mergeTagAux hk acc xs = .ok (acc ++ xs) := by
  induction xs with
  | nil => intro acc hk _; rw [mergeTagAux_nil, List.append_nil]
  | cons t rest ih =>
    intro acc hk hall
    obtain ⟨kvs, tagKey, hobj, hgk, hhash, hcont⟩ := hall t (List.mem_cons_self _ _)
    subst hobj
    rw [mergeTagAux_obj_some_hash hk acc kvs rest tagKey hgk hhash,
      if_neg (by rw [hcont]; simp)]
    rw [ih (acc ++ [JVal.obj kvs]) hk (fun u hu => hall u (List.mem_cons_of_mem _ hu))]
    rw [List.append_assoc, List.singleton_append]

/-- Skip a prefix, then append a fresh suffix. -/
theorem mergeTagAux_skip_then_append (xs : List JVal) :
    ∀ ys acc hk,
      (∀ t ∈ xs, ∃ kvs tagKey, t = JVal.obj kvs
        ∧ getVal kvs "key" = some tagKey ∧ hashable tagKey = true
        ∧ pyMem tagKey hk = true) →
      (∀ t ∈ ys, ∃ kvs tagKey, t = JVal.obj kvs
        ∧ getVal kvs "key" = some tagKey ∧ hashable tagKey = true
        ∧ pyMem tagKey hk = false) →
      mergeTagAux hk acc (xs ++ ys) = .ok (acc ++ ys) := by
  induction xs with
  | nil =>
    intro ys acc hk _ happ
    rw [List.nil_append]
    exact mergeTagAux_append_all ys acc hk happ
  | cons t rest ih =>
    intro ys acc hk hskip happ
    obtain ⟨kvs, tagKey, hobj, hgk, hhash, hcont⟩ := hskip t (List.mem_cons_self _ _)
    subst hobj
    rw [List.cons_append, mergeTagAux_obj_some_hash hk acc kvs (rest ++ ys) tagKey hgk hhash,
      if_pos hcont]
    exact ih ys acc hk (fun u hu => hskip u (List.mem_cons_of_mem _ hu)) happ

/-- Every successful run of the tag-merge loop appends only fresh keyed
mappings with hashable keys to the accumulator. -/
theorem mergeTagAux_ok_shape (xs : List JVal) :
    ∀ acc hk res, mergeTagAux hk acc xs = .ok res →
      ∃ app, res = acc ++ app
        ∧ ∀ t ∈ app, ∃ kvs tagKey, t = JVal.obj kvs
          ∧ getVal kvs "key" = some tagKey ∧ hashable tagKey = true
          ∧ pyMem tagKey hk = false := by
  induction xs with
  | nil =>
    intro acc hk res h
    rw [mergeTagAux_nil] at h
    cases h
    exact ⟨[], by rw [List.append_nil], by simp⟩
  | cons t rest ih =>
    intro acc hk res h
    cases t with
    | obj kvs =>
      cases hgk : getVal kvs "key" with
      | some tagKey =>
        by_cases hh : (hashable tagKey) = true
        · rw [mergeTagAux_obj_some_hash hk acc kvs rest tagKey hgk hh] at h
          by_cases hc : (pyMem tagKey hk) = true
          · rw [if_pos hc] at h
            exact ih acc hk res h
          · rw [if_neg hc] at h
            obtain ⟨app2, heq, hprop⟩ := ih (acc ++ [JVal.obj kvs]) hk res h
            refine ⟨JVal.obj kvs :: app2, ?eq, ?prop⟩
            case eq => rw [heq, List.append_assoc, List.singleton_append]
            case prop =>
              intro u hu
              rcases List.mem_cons.mp hu with h0 | hr
              · subst h0
                exact ⟨kvs, tagKey, rfl, hgk, hh, by simpa using hc⟩
              · exact hprop u hr
        · have hhf : hashable tagKey = false := by simpa using hh
          rw [mergeTagAux_obj_some_unhash hk acc kvs rest tagKey hgk hhf] at h
          cases h
      | none =>
        rw [mergeTagAux_obj_none hk acc kvs rest hgk] at h
        exact ih acc hk res h
    | str s =>
      rw [mergeTagAux_str] at h
      by_cases hs : strContainsKey s = true
      · rw [if_pos hs] at h; cases h
      · rw [if_neg hs] at h; exact ih acc hk res h
    | list ys =>
      rw [mergeTagAux_list] at h
      by_cases hs : (pyMem (.str "key") ys) = true
      · rw [if_pos hs] at h; cases h
      · rw [if_neg hs] at h; exact ih acc hk res h
    | null => rw [mergeTagAux_null] at h; cases h
    | bool b => rw [mergeTagAux_bool] at h; cases h
    | num n => rw [mergeTagAux_num] at h; cases h

/-! ## Self-merge and absorption at the list level -/

theorem tagKeysE_nil : tagKeysE [] = .ok [] := rfl

theorem tagKeysE_obj (kvs : VarDict) (rest : List JVal) :
    tagKeysE (.obj kvs :: rest)
      = match getVal kvs "key" with
        | some v =>
          if hashable v then (tagKeysE rest).map (fun ks => v :: ks) else .error ()
        | none => tagKeysE rest := rfl

theorem tagKeysE_obj_some_hash (kvs : VarDict) (rest : List JVal) (v : JVal)
    (hgv : getVal kvs "key" = some v) (hh : hashable v = true) :
    tagKeysE (.obj kvs :: rest) = (tagKeysE rest).map (fun ks => v :: ks) := by
  rw [tagKeysE_obj, hgv]
  show (if hashable v then (tagKeysE rest).map (fun ks => v :: ks) else .error ()) = _
  rw [if_pos hh]

theorem tagKeysE_obj_some_unhash (kvs : VarDict) (rest : List JVal) (v : JVal)
    (hgv : getVal kvs "key" = some v) (hh : hashable v = false) :
    tagKeysE (.obj kvs :: rest) = .error () := by
  rw [tagKeysE_obj, hgv]
  show (if hashable v then (tagKeysE rest).map (fun ks => v :: ks) else .error ())
      = .error ()
  rw [if_neg (by simp [hh])]

theorem is_tag_list_objs (hl : List JVal) (htag : is_tag_list hl = true) :
    ∀ t ∈ hl, ∃ kvs, t = JVal.obj kvs ∧ containsKey kvs "key" = true := by
  unfold is_tag_list at htag
  rw [Bool.and_eq_true] at htag
  have hall := List.all_eq_true.mp htag.2
  intro t ht
  have := hall t ht
  cases t with
  | obj kvs => exact ⟨kvs, rfl, this⟩
  | null => cases this
  | bool b => cases this
  | num n => cases this
  | str s => cases this
  | list xs => cases this

theorem tagKeysE_spec_aux (hl : List JVal) :
    (∀ t ∈ hl, ∃ kvs, t = JVal.obj kvs ∧ containsKey kvs "key" = true) →
    (∀ t ∈ hl, tagBenign t = true) →
    ∃ hk, tagKeysE hl = .ok hk
      ∧ ∀ t ∈ hl, ∃ kvs tagKey, t = JVal.obj kvs
        ∧ getVal kvs "key" = some tagKey ∧ hashable tagKey = true
        ∧ pyMem tagKey hk = true := by
  induction hl with
  | nil => intro _ _; exact ⟨[], rfl, by simp⟩
  | cons t rest ih =>
    intro hall hben
    obtain ⟨kvs, hobj, hck⟩ := hall t (List.mem_cons_self _ _)
    subst hobj
    obtain ⟨ks, hks, hprop⟩ := ih (fun u hu => hall u (List.mem_cons_of_mem _ hu))
      (fun u hu => hben u (List.mem_cons_of_mem _ hu))
    rw [containsKey_eq_isSome_getVal] at hck
    obtain ⟨tagKey, hgk⟩ := Option.isSome_iff_exists.mp hck
    have hhash : hashable tagKey = true := by
      have hb := hben (.obj kvs) (List.mem_cons_self _ _)
      rw [tagBenign_obj, hgk] at hb
      exact hb
    refine ⟨tagKey :: ks, ?keys, ?prop⟩
    case keys =>
      rw [tagKeysE_obj_some_hash kvs rest tagKey hgk hhash, hks]
      rfl
    case prop =>
      intro u hu
      rcases List.mem_cons.mp hu with h0 | hr
      · subst h0
        refine ⟨kvs, tagKey, rfl, hgk, hhash, ?mem1⟩
        rw [pyMem_cons, pyEq_refl_scalar tagKey hhash]
        simp
      · obtain ⟨kvs2, tk2, hobj2, hgk2, hh2, hct2⟩ := hprop u hr
        refine ⟨kvs2, tk2, hobj2, hgk2, hh2, ?mem2⟩
        rw [pyMem_cons, hct2]
        simp

/-- A tag list whose elements are all benign (hashable `key` values) yields
its key list, and every element's key occurs in it. -/
theorem is_tag_list_spec (hl : List JVal) (htag : is_tag_list hl = true)
    (hben : ∀ t ∈ hl, tagBenign t = true) :
    ∃ hk, tagKeysE hl = .ok hk
      ∧ ∀ t ∈ hl, ∃ kvs tagKey, t = JVal.obj kvs
        ∧ getVal kvs "key" = some tagKey ∧ hashable tagKey = true
        ∧ pyMem tagKey hk = true :=
  tagKeysE_spec_aux hl (is_tag_list_objs hl htag) hben

/-- When building the key lookup succeeded, every tag-list element's key is
hashable and occurs in the produced key list. -/
theorem tagKeysE_ok_mem (hl : List JVal) :
    ∀ hk, tagKeysE hl = .ok hk →
      (∀ t ∈ hl, ∃ kvs, t = JVal.obj kvs ∧ containsKey kvs "key" = true) →
      ∀ t ∈ hl, ∃ kvs tagKey, t = JVal.obj kvs
        ∧ getVal kvs "key" = some tagKey ∧ hashable tagKey = true
        ∧ pyMem tagKey hk = true := by
  induction hl with
  | nil => intro hk _ _ t ht; cases ht
  | cons t0 rest ih =>
    intro hk hok hall
    obtain ⟨kvs, hobj, hck⟩ := hall t0 (List.mem_cons_self _ _)
    subst hobj
    rw [containsKey_eq_isSome_getVal] at hck
    obtain ⟨v, hgv⟩ := Option.isSome_iff_exists.mp hck
    by_cases hh : (hashable v) = true
    · rw [tagKeysE_obj_some_hash kvs rest v hgv hh] at hok
      cases hrest : tagKeysE rest with
      | error e => rw [hrest] at hok; cases hok
      | ok ks =>
        rw [hrest] at hok
        have hkeq : hk = v :: ks := by
          simp only [Except.map, Except.ok.injEq] at hok
          exact hok.symm
        subst hkeq
        have hprop := ih ks hrest (fun u hu => hall u (List.mem_cons_of_mem _ hu))
        intro u hu
        rcases List.mem_cons.mp hu with h0 | hr
        · subst h0
          refine ⟨kvs, v, rfl, hgv, hh, ?mem3⟩
          rw [pyMem_cons, pyEq_refl_scalar v hh]
          simp
        · obtain ⟨kvs2, tk2, hobj2, hgk2, hh2, hct2⟩ := hprop u hr
          refine ⟨kvs2, tk2, hobj2, hgk2, hh2, ?mem4⟩
          rw [pyMem_cons, hct2]
          simp
    · have hhf : hashable v = false := by simpa using hh
      rw [tagKeysE_obj_some_unhash kvs rest v hgv hhf] at hok
      cases hok

/-- Merging a well-formed list with itself returns it unchanged. -/
theorem merge_lists_self (hl : List JVal) (key : String)
    (hwf : wellFormed (.list hl) = true) :
    merge_lists hl hl key = .ok hl := by
  by_cases hcond : ((key == "additional_tags" || key == "tags") && is_tag_list hl) = true
  · rw [merge_lists_tag hl hl key hcond]
    have htag : is_tag_list hl = true := (Bool.and_eq_true _ _ |>.mp hcond).2
    obtain ⟨hk, hkeys, hprop⟩ := is_tag_list_spec hl htag (wellFormed_list_benign hl hwf htag)
    rw [merge_tag_lists_eq hl hl hk hkeys]
    exact mergeTagAux_skip_all hl hl hk hprop
  · rw [merge_lists_union hl hl key (by simpa using hcond)]
    rw [dedupe_skip hl hl (fun x hx =>
      pyMem_of_mem hl x hx (pyEq_refl x (wellFormed_list_elems hl hwf x hx)))]

/-- Re-merging the result of a list merge against the same well-formed
higher list is a no-op. -/
theorem merge_lists_absorb (ll hl res : List JVal) (key : String)
    (hwf : wellFormed (.list hl) = true)
    (h : merge_lists ll hl key = .ok res) : merge_lists res hl key = .ok res := by
  by_cases hcond : ((key == "additional_tags" || key == "tags") && is_tag_list hl) = true
  · rw [merge_lists_tag ll hl key hcond] at h
    rw [merge_lists_tag res hl key hcond]
    have htag : is_tag_list hl = true := (Bool.and_eq_true _ _ |>.mp hcond).2
    unfold merge_tag_lists at h ⊢
    cases hkeys : tagKeysE hl with
    | error e => rw [hkeys] at h; cases h
    | ok hk =>
      rw [hkeys] at h
      have hprop := tagKeysE_ok_mem hl hk hkeys (is_tag_list_objs hl htag)
      obtain ⟨app, heq, happ⟩ := mergeTagAux_ok_shape ll hl hk res h
      rw [heq]
      exact mergeTagAux_skip_then_append hl app hl hk hprop happ
  · have hcond2 : ((key == "additional_tags" || key == "tags") && is_tag_list hl) = false := by
      simpa using hcond
    rw [merge_lists_union ll hl key hcond2] at h
    rw [merge_lists_union res hl key hcond2]
    obtain ⟨app, heq, hpw, hfr⟩ := dedupe_shape ll hl
    have hres : res = hl ++ app := by
      rw [heq] at h
      exact (Except.ok.injEq _ _ |>.mp h).symm
    have hwl : ∀ x ∈ hl, wellFormed x = true := wellFormed_list_elems hl hwf
    rw [hres, List.foldl_append,
      dedupe_skip hl hl (fun x hx => pyMem_of_mem hl x hx (pyEq_refl x (hwl x hx))),
      dedupe_fresh app hl hpw hfr]

/-! ## Preservation lemmas for the nested dict-merge loop -/

theorem merge_dictionaries_getVal_preserve (rest : VarDict) :
    ∀ res out key k, (∀ p ∈ rest, p.1 ≠ k) → merge_dictionaries res rest key = .ok out →
      getVal out k = getVal res k := by
  induction rest with
  | nil =>
    intro res out key k _ h
    rw [merge_dictionaries_nil] at h
    cases h
    rfl
  | cons q t ih =>
    obtain ⟨k0, hv⟩ := q
    intro res out key k hne h
    have hk0 : k0 ≠ k := hne (k0, hv) (List.mem_cons_self _ _)
    have hnet : ∀ p ∈ t, p.1 ≠ k := fun p hp => hne p (List.mem_cons_of_mem _ hp)
    rw [merge_dictionaries_cons] at h
    by_cases hck : (containsKey res k0) = true
    · rw [if_pos hck] at h
      cases hmv : merge_values ((getVal res k0).getD .null) hv (key ++ "." ++ k0) with
      | error e => rw [hmv] at h; cases h
      | ok mv =>
        rw [hmv] at h
        rw [ih _ _ _ _ hnet h]
        exact setVal_getVal_ne res k0 k mv (fun hh => hk0 hh.symm)
    · rw [if_neg hck] at h
      rw [ih _ _ _ _ hnet h]
      by_cases hgv : getVal res k = none
      · rw [hgv]
        have hcf : containsKey res k = false := by
          rw [containsKey_eq_isSome_getVal, hgv]; rfl
        rw [getVal_append_right _ _ _ hcf, getVal_cons]
        have hkk : (k0 == k) = false := by
          simp only [beq_eq_false_iff_ne, ne_eq]; exact hk0
        rw [hkk]
        simp only [Bool.false_eq_true, if_false, getVal_nil]
      · obtain ⟨w, hw⟩ := Option.ne_none_iff_exists.mp hgv
        rw [← hw]
        exact getVal_append_left _ _ _ _ hw.symm

theorem merge_dictionaries_entries_preserve (rest : VarDict) :
    ∀ res out key k v, (∀ p ∈ rest, p.1 ≠ k) →
      (∀ q ∈ res, q.1 = k → q = (k, v)) →
      merge_dictionaries res rest key = .ok out →
      ∀ q ∈ out, q.1 = k → q = (k, v) := by
  induction rest with
  | nil =>
    intro res out key k v _ hres h
    rw [merge_dictionaries_nil] at h
    cases h
    exact hres
  | cons q0 t ih =>
    obtain ⟨k0, hv⟩ := q0
    intro res out key k v hne hres h
    have hk0 : k0 ≠ k := hne (k0, hv) (List.mem_cons_self _ _)
    have hnet : ∀ p ∈ t, p.1 ≠ k := fun p hp => hne p (List.mem_cons_of_mem _ hp)
    rw [merge_dictionaries_cons] at h
    by_cases hck : (containsKey res k0) = true
    · rw [if_pos hck] at h
      cases hmv : merge_values ((getVal res k0).getD .null) hv (key ++ "." ++ k0) with
      | error e => rw [hmv] at h; cases h
      | ok mv =>
        rw [hmv] at h
        refine ih _ _ _ _ _ hnet ?hpres h
        intro q hq hqk
        rcases setVal_mem_cases res k0 mv q hq with hq1 | hq2
        · rw [hq1] at hqk
          exact absurd hqk hk0
        · exact hres q hq2 hqk
    · rw [if_neg hck] at h
      refine ih _ _ _ _ _ hnet ?hpres2 h
      intro q hq hqk
      rcases List.mem_append.mp hq with hmem | hmem
      · exact hres q hmem hqk
      · have hq1 : q = (k0, hv) := by simpa using hmem
        rw [hq1] at hqk
        exact absurd hqk hk0

/-! ## Self-merge and absorption for the dict loops -/

theorem merge_dictionaries_self_aux (hd : VarDict) :
    ∀ res key,
      (∀ p ∈ hd, p ∈ res) →
      (∀ p ∈ hd, ∀ q ∈ res, q.1 = p.1 → q = p) →
      (∀ p ∈ hd, ∀ key2, merge_values p.2 p.2 key2 = .ok p.2) →
      merge_dictionaries res hd key = .ok res := by
  induction hd with
  | nil => intro res key _ _ _; exact merge_dictionaries_nil res key
  | cons p0 rest ih =>
    obtain ⟨k, v⟩ := p0
    intro res key hmem huniq hself
    have hmem0 : (k, v) ∈ res := hmem (k, v) (List.mem_cons_self _ _)
    have huniq0 : ∀ q ∈ res, q.1 = k → q = (k, v) :=
      huniq (k, v) (List.mem_cons_self _ _)
    have hgv : getVal res k = some v := getVal_of_mem_unique res (k, v) hmem0 huniq0
    have hck : containsKey res k = true := containsKey_of_getVal res k v hgv
    rw [merge_dictionaries_cons, if_pos hck, hgv]
    simp only [Option.getD_some]
    rw [hself (k, v) (List.mem_cons_self _ _) (key ++ "." ++ k)]
    show merge_dictionaries (setVal res k v) rest key = .ok res
    rw [setVal_eq_self res k v hck huniq0]
    exact ih res key (fun p hp => hmem p (List.mem_cons_of_mem _ hp))
      (fun p hp => huniq p (List.mem_cons_of_mem _ hp))
      (fun p hp => hself p (List.mem_cons_of_mem _ hp))

theorem merge_dictionaries_self (kvs : VarDict) (key : String)
    (hnd : wellFormedEntries kvs = true)
    (hself : ∀ p ∈ kvs, ∀ key2, merge_values p.2 p.2 key2 = .ok p.2) :
    merge_dictionaries kvs kvs key = .ok kvs :=
  merge_dictionaries_self_aux kvs kvs key (fun _ hp => hp)
    (wellFormedEntries_unique kvs hnd) hself

theorem merge_dictionaries_absorb (hd : VarDict) :
    ∀ key res res2,
      wellFormedEntries hd = true →
      (∀ p ∈ hd, ∀ key2, merge_values p.2 p.2 key2 = .ok p.2) →
      (∀ p ∈ hd, ∀ a r key2, merge_values a p.2 key2 = .ok r →
        merge_values r p.2 key2 = .ok r) →
      merge_dictionaries res hd key = .ok res2 →
      merge_dictionaries res2 hd key = .ok res2 := by
  induction hd with
  | nil =>
    intro key res res2 _ _ _ h
    rw [merge_dictionaries_nil] at h
    cases h
    exact merge_dictionaries_nil _ _
  | cons p0 rest ih =>
    obtain ⟨k, hv⟩ := p0
    intro key res res2 hnd hself habs h
    obtain ⟨hfresh, hnv, hndrest⟩ := wellFormedEntries_head_fresh k hv rest hnd
    have hrestne : ∀ p ∈ rest, p.1 ≠ k := not_key_of_containsKey_false rest k hfresh
    have hselfr : ∀ p ∈ rest, ∀ key2, merge_values p.2 p.2 key2 = .ok p.2 :=
      fun p hp => hself p (List.mem_cons_of_mem _ hp)
    have habsr : ∀ p ∈ rest, ∀ a r key2, merge_values a p.2 key2 = .ok r →
        merge_values r p.2 key2 = .ok r :=
      fun p hp => habs p (List.mem_cons_of_mem _ hp)
    rw [merge_dictionaries_cons] at h
    by_cases hck : (containsKey res k) = true
    · rw [if_pos hck] at h
      cases hmv : merge_values ((getVal res k).getD .null) hv (key ++ "." ++ k) with
      | error e => rw [hmv] at h; cases h
      | ok mv =>
        rw [hmv] at h
        have hck2 : containsKey res2 k = true :=
          merge_dictionaries_containsKey rest (setVal res k mv) res2 key k h
            (by rw [containsKey_setVal]; simp)
        have hgv2 : getVal res2 k = some mv := by
          rw [merge_dictionaries_getVal_preserve rest (setVal res k mv) res2 key k hrestne h]
          exact setVal_getVal_self res k mv
        have hent2 : ∀ q ∈ res2, q.1 = k → q = (k, mv) :=
          merge_dictionaries_entries_preserve rest (setVal res k mv) res2 key k mv hrestne
            (fun q hq hqk => setVal_mem_eq res k mv q hq hqk) h
        rw [merge_dictionaries_cons, if_pos hck2, hgv2]
        simp only [Option.getD_some]
        rw [habs (k, hv) (List.mem_cons_self _ _) ((getVal res k).getD .null) mv
          (key ++ "." ++ k) hmv]
        show merge_dictionaries (setVal res2 k mv) rest key = .ok res2
        rw [setVal_eq_self res2 k mv hck2 hent2]
        exact ih key (setVal res k mv) res2 hndrest hselfr habsr h
    · rw [if_neg hck] at h
      have hckf : containsKey res k = false := by simpa using hck
      have hck2 : containsKey res2 k = true :=
        merge_dictionaries_containsKey rest (res ++ [(k, hv)]) res2 key k h
          (by rw [containsKey_append, containsKey_cons]; simp)
      have hgv2 : getVal res2 k = some hv := by
        rw [merge_dictionaries_getVal_preserve rest (res ++ [(k, hv)]) res2 key k hrestne h]
        rw [getVal_append_right res [(k, hv)] k hckf, getVal_cons]
        simp
      have hent2 : ∀ q ∈ res2, q.1 = k → q = (k, hv) := by
        refine merge_dictionaries_entries_preserve rest (res ++ [(k, hv)]) res2 key k hv
          hrestne ?base h
        intro q hq hqk
        rcases List.mem_append.mp hq with hmem | hmem
        · exact absurd hqk (not_key_of_containsKey_false res k hckf q hmem)
        · simpa using hmem
      rw [merge_dictionaries_cons, if_pos hck2, hgv2]
      simp only [Option.getD_some]
      rw [hself (k, hv) (List.mem_cons_self _ _) (key ++ "." ++ k)]
      show merge_dictionaries (setVal res2 k hv) rest key = .ok res2
      rw [setVal_eq_self res2 k hv hck2 hent2]
      exact ih key (res ++ [(k, hv)]) res2 hndrest hselfr habsr h

/-! ## The same two lemmas for the top-level loop of `merge_variables` -/

theorem mergeVarsAux_self_aux (hd : VarDict) :
    ∀ res,
      (∀ p ∈ hd, p ∈ res) →
      (∀ p ∈ hd, ∀ q ∈ res, q.1 = p.1 → q = p) →
      (∀ p ∈ hd, ∀ key2, merge_values p.2 p.2 key2 = .ok p.2) →
      mergeVarsAux res hd = .ok res := by
  induction hd with
  | nil => intro res _ _ _; exact mergeVarsAux_nil res
  | cons p0 rest ih =>
    obtain ⟨k, v⟩ := p0
    intro res hmem huniq hself
    have hmem0 : (k, v) ∈ res := hmem (k, v) (List.mem_cons_self _ _)
    have huniq0 : ∀ q ∈ res, q.1 = k → q = (k, v) :=
      huniq (k, v) (List.mem_cons_self _ _)
    have hgv : getVal res k = some v := getVal_of_mem_unique res (k, v) hmem0 huniq0
    have hck : containsKey res k = true := containsKey_of_getVal res k v hgv
    rw [mergeVarsAux_cons, if_pos hck, hgv]
    simp only [Option.getD_some]
    rw [hself (k, v) (List.mem_cons_self _ _) k]
    show mergeVarsAux (setVal res k v) rest = .ok res
    rw [setVal_eq_self res k v hck huniq0]
    exact ih res (fun p hp => hmem p (List.mem_cons_of_mem _ hp))
      (fun p hp => huniq p (List.mem_cons_of_mem _ hp))
      (fun p hp => hself p (List.mem_cons_of_mem _ hp))

theorem mergeVarsAux_absorb (hd : VarDict) :
    ∀ res res2,
      wellFormedEntries hd = true →
      (∀ p ∈ hd, ∀ key2, merge_values p.2 p.2 key2 = .ok p.2) →
      (∀ p ∈ hd, ∀ a r key2, merge_values a p.2 key2 = .ok r →
        merge_values r p.2 key2 = .ok r) →
      mergeVarsAux res hd = .ok res2 →
      mergeVarsAux res2 hd = .ok res2 := by
  induction hd with
  | nil =>
    intro res res2 _ _ _ h
    rw [mergeVarsAux_nil] at h
    cases h
    exact mergeVarsAux_nil _
  | cons p0 rest ih =>
    obtain ⟨k, hv⟩ := p0
    intro res res2 hnd hself habs h
    obtain ⟨hfresh, hnv, hndrest⟩ := wellFormedEntries_head_fresh k hv rest hnd
    have hrestne : ∀ p ∈ rest, p.1 ≠ k := not_key_of_containsKey_false rest k hfresh
    have hselfr : ∀ p ∈ rest, ∀ key2, merge_values p.2 p.2 key2 = .ok p.2 :=
      fun p hp => hself p (List.mem_cons_of_mem _ hp)
    have habsr : ∀ p ∈ rest, ∀ a r key2, merge_values a p.2 key2 = .ok r →
        merge_values r p.2 key2 = .ok r :=
      fun p hp => habs p (List.mem_cons_of_mem _ hp)
    rw [mergeVarsAux_cons] at h
    by_cases hck : (containsKey res k) = true
    · rw [if_pos hck] at h
      cases hmv : merge_values ((getVal res k).getD .null) hv k with
      | error e => rw [hmv] at h; cases h
      | ok mv =>
        rw [hmv] at h
        have hck2 : containsKey res2 k = true :=
          mergeVarsAux_containsKey rest (setVal res k mv) res2 k h
            (by rw [containsKey_setVal]; simp)
        have hgv2 : getVal res2 k = some mv := by
          rw [mergeVarsAux_getVal_preserve rest (setVal res k mv) res2 k hrestne h]
          exact setVal_getVal_self res k mv
        have hent2 : ∀ q ∈ res2, q.1 = k → q = (k, mv) :=
          mergeVarsAux_entries_preserve rest (setVal res k mv) res2 k mv hrestne
            (fun q hq hqk => setVal_mem_eq res k mv q hq hqk) h
        rw [mergeVarsAux_cons, if_pos hck2, hgv2]
        simp only [Option.getD_some]
        rw [habs (k, hv) (List.mem_cons_self _ _) ((getVal res k).getD .null) mv k hmv]
        show mergeVarsAux (setVal res2 k mv) rest = .ok res2
        rw [setVal_eq_self res2 k mv hck2 hent2]
        exact ih (setVal res k mv) res2 hndrest hselfr habsr h
    · rw [if_neg hck] at h
      have hckf : containsKey res k = false := by simpa using hck
      have hck2 : containsKey res2 k = true :=
        mergeVarsAux_containsKey rest (res ++ [(k, hv)]) res2 k h
          (by rw [containsKey_append, containsKey_cons]; simp)
      have hgv2 : getVal res2 k = some hv := by
        rw [mergeVarsAux_getVal_preserve rest (res ++ [(k, hv)]) res2 k hrestne h]
        rw [getVal_append_right res [(k, hv)] k hckf, getVal_cons]
        simp
      have hent2 : ∀ q ∈ res2, q.1 = k → q = (k, hv) := by
        refine mergeVarsAux_entries_preserve rest (res ++ [(k, hv)]) res2 k hv
          hrestne ?base2 h
        intro q hq hqk
        rcases List.mem_append.mp hq with hmem | hmem
        · exact absurd hqk (not_key_of_containsKey_false res k hckf q hmem)
        · simpa using hmem
      rw [mergeVarsAux_cons, if_pos hck2, hgv2]
      simp only [Option.getD_some]
      rw [hself (k, hv) (List.mem_cons_self _ _) k]
      show mergeVarsAux (setVal res2 k hv) rest = .ok res2
      rw [setVal_eq_self res2 k hv hck2 hent2]
      exact ih (res ++ [(k, hv)]) res2 hndrest hselfr habsr h

/-! ## The master self-merge / absorption theorem for values -/

/-- Self-merge is the identity and a successful merge absorbs a re-merge
with the same higher value, for every well-formed higher value. -/
theorem mergeSelfAbsorbAux :
    ∀ (n : Nat) (b : JVal), sizeOf b ≤ n → wellFormed b = true →
      (∀ key, merge_values b b key = .ok b)
      ∧ (∀ a r key, merge_values a b key = .ok r → merge_values r b key = .ok r) := by
  intro n
  induction n with
  | zero =>
    intro b hb _
    exfalso
    cases b <;> simp at hb
  | succ n ih =>
    intro b hsize hnd
    have hvals : ∀ (kvs : VarDict), b = JVal.obj kvs →
        (∀ p ∈ kvs, ∀ key2, merge_values p.2 p.2 key2 = .ok p.2)
        ∧ (∀ p ∈ kvs, ∀ a r key2, merge_values a p.2 key2 = .ok r →
            merge_values r p.2 key2 = .ok r) := by
      intro kvs hb
      subst hb
      have hnde : wellFormedEntries kvs = true := hnd
      constructor
      · intro p hp key2
        have hlt := sizeOf_val_lt_obj kvs p hp
        exact (ih p.2 (by omega) (wellFormedEntries_values kvs hnde p hp)).1 key2
      · intro p hp a r key2 hh
        have hlt := sizeOf_val_lt_obj kvs p hp
        exact (ih p.2 (by omega) (wellFormedEntries_values kvs hnde p hp)).2 a r key2 hh
    constructor
    · -- self-merge
      intro key
      cases b with
      | null => exact merge_values_higher_null .null key
      | bool bb => rfl
      | num nn => rfl
      | str ss => rfl
      | list hl =>
        rw [merge_values_lists, merge_lists_self hl key hnd]
        rfl
      | obj kvs =>
        rw [merge_values_objs,
          merge_dictionaries_self kvs key hnd ((hvals kvs rfl).1)]
        rfl
    · -- absorption
      intro a r key hmerge
      cases b with
      | null =>
        rw [merge_values_higher_null] at hmerge
        cases hmerge
        exact merge_values_higher_null a key
      | bool bb =>
        have h2 : (Except.ok (JVal.bool bb) : Except Unit JVal) = .ok r := by
          cases a <;> exact hmerge
        cases h2
        rfl
      | num nn =>
        have h2 : (Except.ok (JVal.num nn) : Except Unit JVal) = .ok r := by
          cases a <;> exact hmerge
        cases h2
        rfl
      | str ss =>
        have h2 : (Except.ok (JVal.str ss) : Except Unit JVal) = .ok r := by
          cases a <;> exact hmerge
        cases h2
        rfl
      | list hl =>
        have hlself : merge_values (.list hl) (.list hl) key = .ok (.list hl) := by
          rw [merge_values_lists, merge_lists_self hl key hnd]
          rfl
        cases a with
        | list ll =>
          rw [merge_values_lists] at hmerge
          cases hml : merge_lists ll hl key with
          | error e =>
            rw [hml] at hmerge
            cases hmerge
          | ok res =>
            rw [hml] at hmerge
            have h2 : (Except.ok (JVal.list res) : Except Unit JVal) = .ok r := hmerge
            cases h2
            rw [merge_values_lists, merge_lists_absorb ll hl res key hnd hml]
            rfl
        | null =>
          have h2 : (Except.ok (JVal.list hl) : Except Unit JVal) = .ok r := hmerge
          cases h2
          exact hlself
        | bool x =>
          have h2 : (Except.ok (JVal.list hl) : Except Unit JVal) = .ok r := hmerge
          cases h2
          exact hlself
        | num x =>
          have h2 : (Except.ok (JVal.list hl) : Except Unit JVal) = .ok r := hmerge
          cases h2
          exact hlself
        | str x =>
          have h2 : (Except.ok (JVal.list hl) : Except Unit JVal) = .ok r := hmerge
          cases h2
          exact hlself
        | obj x =>
          have h2 : (Except.ok (JVal.list hl) : Except Unit JVal) = .ok r := hmerge
          cases h2
          exact hlself
      | obj hd =>
        have hoself : merge_values (.obj hd) (.obj hd) key = .ok (.obj hd) := by
          rw [merge_values_objs,
            merge_dictionaries_self hd key hnd ((hvals hd rfl).1)]
          rfl
        cases a with
        | obj ld =>
          rw [merge_values_objs] at hmerge
          cases hmd : merge_dictionaries ld hd key with
          | error e =>
            rw [hmd] at hmerge
            cases hmerge
          | ok res =>
            rw [hmd] at hmerge
            have h2 : (Except.ok (JVal.obj res) : Except Unit JVal) = .ok r := hmerge
            cases h2
            rw [merge_values_objs,
              merge_dictionaries_absorb hd key ld res hnd
                ((hvals hd rfl).1) ((hvals hd rfl).2) hmd]
            rfl
        | null =>
          have h2 : (Except.ok (JVal.obj hd) : Except Unit JVal) = .ok r := hmerge
          cases h2
          exact hoself
        | bool x =>
          have h2 : (Except.ok (JVal.obj hd) : Except Unit JVal) = .ok r := hmerge
          cases h2
          exact hoself
        | num x =>
          have h2 : (Except.ok (JVal.obj hd) : Except Unit JVal) = .ok r := hmerge
          cases h2
          exact hoself
        | str x =>
          have h2 : (Except.ok (JVal.obj hd) : Except Unit JVal) = .ok r := hmerge
          cases h2
          exact hoself
        | list x =>
          have h2 : (Except.ok (JVal.obj hd) : Except Unit JVal) = .ok r := hmerge
          cases h2
          exact hoself

/-- Closed form of the master theorem. -/
theorem merge_values_absorb (b : JVal) (hwf : wellFormed b = true) :
    (∀ key, merge_values b b key = .ok b)
    ∧ (∀ a r key, merge_values a b key = .ok r → merge_values r b key = .ok r) :=
  mergeSelfAbsorbAux (sizeOf b) b (Nat.le_refl _) hwf

/-! ## Claim C8: idempotence of re-resolution -/

theorem isEmpty_false_of_containsKey (r : VarDict) (k : String)
    (h : containsKey r k = true) : r.isEmpty = false := by
  cases r with
  | nil => cases h
  | cons q t => rfl

/-- Merging a well-formed dict onto itself is the identity. -/
theorem merge_variables_self (b : VarDict) (hnd : wellFormedEntries b = true) :
    merge_variables b b = .ok b := by
  unfold merge_variables
  by_cases hbe : b.isEmpty = true
  · rw [if_pos hbe]
  · rw [if_neg hbe, if_neg hbe]
    exact mergeVarsAux_self_aux b b (fun _ hp => hp) (wellFormedEntries_unique b hnd)
      (fun p hp key2 =>
        (merge_values_absorb p.2 (wellFormedEntries_values b hnd p hp)).1 key2)

/-- Re-merging the result of `merge_variables` against the same well-formed
higher dict is a no-op. -/
theorem merge_variables_absorb (a b r : VarDict) (hnd : wellFormedEntries b = true)
    (h : merge_variables a b = .ok r) : merge_variables r b = .ok r := by
  have hself : ∀ p ∈ b, ∀ key2, merge_values p.2 p.2 key2 = .ok p.2 :=
    fun p hp key2 =>
      (merge_values_absorb p.2 (wellFormedEntries_values b hnd p hp)).1 key2
  have habs : ∀ p ∈ b, ∀ a2 r2 key2, merge_values a2 p.2 key2 = .ok r2 →
      merge_values r2 p.2 key2 = .ok r2 :=
    fun p hp a2 r2 key2 hh =>
      (merge_values_absorb p.2 (wellFormedEntries_values b hnd p hp)).2 a2 r2 key2 hh
  by_cases hae : a.isEmpty = true
  · unfold merge_variables at h
    rw [if_pos hae] at h
    cases h
    exact merge_variables_self b hnd
  · by_cases hbe : b.isEmpty = true
    · unfold merge_variables at h
      rw [if_neg hae, if_pos hbe] at h
      cases h
      unfold merge_variables
      rw [if_neg hae, if_pos hbe]
    · unfold merge_variables at h
      rw [if_neg hae, if_neg hbe] at h
      have hre : r.isEmpty = false := by
        have hane : a.isEmpty = false := by simpa using hae
        cases ha : a with
        | nil => rw [ha] at hane; cases hane
        | cons q t =>
          rw [ha] at h
          have hc : containsKey (q :: t) q.1 = true := containsKey_of_mem _ q (List.mem_cons_self _ _)
          exact isEmpty_false_of_containsKey r q.1 (mergeVarsAux_containsKey b (q :: t) r q.1 h hc)
      unfold merge_variables
      rw [if_neg (by rw [hre]; simp), if_neg hbe]
      exact mergeVarsAux_absorb b a r hnd hself habs h

/-- C8, counterexample: with `A = {}` and layers
`L1 = {"tags": [{"key": "a"}]}`, `L2 = {"tags": [5]}`, resolution succeeds
with `{"tags": [5, {"key": "a"}]}`, but re-running the chain on that result
raises a `TypeError` inside the keyed tag merge (`'key' in 5`), so
`apply_priority_chain(apply_priority_chain(A, Ls), Ls)` is not
`apply_priority_chain(A, Ls)`. -/
theorem c8_counterexample :
    (match apply_priority_chain []
        [[("tags", JVal.list [JVal.obj [("key", JVal.str "a")]])],
         [("tags", JVal.list [JVal.num 5])]] with
     | .ok r => apply_priority_chain r
         [[("tags", JVal.list [JVal.obj [("key", JVal.str "a")]])],
          [("tags", JVal.list [JVal.num 5])]]
     | .error e => .error e)
      = .error ()
    ∧ apply_priority_chain []
        [[("tags", JVal.list [JVal.obj [("key", JVal.str "a")]])],
         [("tags", JVal.list [JVal.num 5])]]
      = .ok [("tags", JVal.list [JVal.num 5, JVal.obj [("key", JVal.str "a")]])]
    ∧ (Except.error () : Except Unit VarDict)
      ≠ .ok [("tags", JVal.list [JVal.num 5, JVal.obj [("key", JVal.str "a")]])] := by
  decide

/-- C8, amended: for a single well-formed layer `B` — duplicate-free keys
throughout, as every `json.loads` value has, and no tag list carrying an
unhashable (list/dict) `key` value — resolution is idempotent:
`apply_priority_chain(apply_priority_chain(A, [B]), [B])
  == apply_priority_chain(A, [B])`.  Without the hashability condition even
one layer can fail: with `B = {"tags": [{"key": []}]}` the first
resolution returns `B` but the second raises `TypeError` building
`higher_tag_keys`; and with two or more layers re-application can raise a
`TypeError` in the keyed tag merge (see the counterexample), so the
general law fails. -/
theorem c8_amended (A B : VarDict) (hnd : wellFormedEntries B = true) :
    (match apply_priority_chain A [B] with
     | .ok r => apply_priority_chain r [B]
     | .error e => .error e)
      = apply_priority_chain A [B] := by
  unfold apply_priority_chain
  by_cases hbe : B.isEmpty = true
  · rw [applyChainAux_cons, if_pos hbe, applyChainAux_nil]
    show applyChainAux A [B] = .ok A
    rw [applyChainAux_cons, if_pos hbe, applyChainAux_nil]
  · rw [applyChainAux_cons, if_neg hbe]
    cases hm : merge_variables A B with
    | error e => rfl
    | ok r =>
      show applyChainAux r [B] = .ok r
      rw [applyChainAux_cons, if_neg hbe, merge_variables_absorb A B r hnd hm]
      rfl

/-- Witness for `c8_amended` at a concrete entry and layer. -/
theorem c8_amended_witness :
    (match apply_priority_chain [("x", JVal.num 1)]
        [[("x", JVal.num 2), ("tags", JVal.list [JVal.obj [("key", JVal.str "a")]])]] with
     | .ok r => apply_priority_chain r
         [[("x", JVal.num 2), ("tags", JVal.list [JVal.obj [("key", JVal.str "a")]])]]
     | .error e => .error e)
      = apply_priority_chain [("x", JVal.num 1)]
          [[("x", JVal.num 2), ("tags", JVal.list [JVal.obj [("key", JVal.str "a")]])]] :=
  c8_amended [("x", JVal.num 1)]
    [("x", JVal.num 2), ("tags", JVal.list [JVal.obj [("key", JVal.str "a")]])]
    (by decide)

end PrepStage
